import Mathlib

/-!
# AlphaRevolve core — shallow embedding and verification

A shallow embedding of the evaluation harness and candidate store of the
AlphaRevolve repository, together with proofs about the claims of its
specification.

Modelling conventions:
* JavaScript numbers are modelled as rationals (`ℚ`); the sources never rely
  on float-specific behaviour in the properties considered here.
* A JS `Map` (insertion ordered) is modelled as a list in insertion order;
  `Map.set` updates in place when the key exists and appends otherwise.
* A JS plain object used as a string-keyed record is an association list.
* `Date` values are epoch milliseconds (`ℤ`); `toISOString` is injective on
  instants, so ISO-8601 equality of serialized timestamps is equality of the
  underlying integers.
* Randomness (generated ids, `Math.random`) and the wall clock are passed in
  as explicit arguments.
-/

namespace AlphaRevolve

/-- JavaScript `x || 0` on a number: `0` is the only falsy rational, so this
is the identity on `ℚ`; kept to mirror `fitness.finalScore || 0` in
`ProgramDatabase.addProgram`/`getBestProgram` (part_012, line 88). -/
def jsOrZero (q : ℚ) : ℚ :=
  if q = 0 then 0 else q

/-- JavaScript truthiness of a string: only `""` is falsy. -/
def strTruthy (s : String) : Bool :=
  s ≠ ""

/-- Fitness metrics of a candidate (src/types.ts `FitnessScores`): the three
scores plus the open-ended map of additional named numeric metrics. Aliasing
of nested metric objects is studied separately in the `FitnessHeap`
namespace; here fitness is a pure value. -/
structure Fitness where
  qualityScore : ℚ
  efficiencyScore : ℚ
  finalScore : ℚ
  metrics : List (String × ℚ)
deriving DecidableEq

/-- A stored candidate (src/types.ts `CandidateSolution`). `timestamp` is the
creation instant in epoch milliseconds. -/
structure CandidateSolution where
  id : String
  solution : String
  fitness : Fitness
  iteration : ℕ
  parent : Option String
  timestamp : ℤ
  feedback : Option String
  generationPrompt : Option String
  feedbackPrompt : Option String
deriving DecidableEq

/-- A JSON-ish metadata value: the metadata bag stores strings and `null`
(the only values the core itself ever places there that the claims observe). -/
inductive MetaVal where
  | str (s : String)
  | null
deriving DecidableEq

/-- JS object update `obj[k] = v` on an association list: overwrite in place
if the key exists, append otherwise (JS key order semantics). -/
def objSet (l : List (String × MetaVal)) (k : String) (v : MetaVal) :
    List (String × MetaVal) :=
  if l.any (fun p => p.1 = k) then
    l.map (fun p => if p.1 = k then (k, v) else p)
  else l ++ [(k, v)]

/-- JS `Map.set(id, candidate)` keyed by candidate id. -/
def mapSet (l : List CandidateSolution) (c : CandidateSolution) :
    List CandidateSolution :=
  if l.any (fun x => x.id = c.id) then
    l.map (fun x => if x.id = c.id then c else x)
  else l ++ [c]

/-- State of `ProgramDatabase` (part_012): the candidate map in insertion
order, the metadata bag, and the cached best-program id. -/
structure ProgramDatabase where
  programs : List CandidateSolution
  metadata : List (String × MetaVal)
  bestProgramId : Option String
deriving DecidableEq

/-- The empty database (`new ProgramDatabase()`). -/
def ProgramDatabase.empty : ProgramDatabase :=
  { programs := [], metadata := [], bestProgramId := none }

namespace ProgramDatabase

/-- `getProgram(id)`: `Map.get` — the unique entry with this id. -/
def getProgram (db : ProgramDatabase) (id : String) : Option CandidateSolution :=
  db.programs.find? (fun c => c.id = id)

/-- `getAllPrograms()` as list contents (`Array.from(this.programs.values())`);
the fact that each call allocates a fresh array is modelled in `ArrWorld`. -/
def getAllPrograms (db : ProgramDatabase) : List CandidateSolution :=
  db.programs

/-- The `count` getter. -/
def count (db : ProgramDatabase) : ℕ :=
  db.programs.length

/-- The comparator `(a, b) => b.fitness.finalScore - a.fitness.finalScore`
as a boolean "b may come after a" test: descending by final score. -/
def byFinalScoreDesc (a b : CandidateSolution) : Bool :=
  b.fitness.finalScore ≤ a.fitness.finalScore

/-- Stable insertion into a descending-sorted list: the element moves past
strictly higher scores only, so it lands before any equal-scored element
already present. -/
def insertByFinalScoreDesc (c : CandidateSolution) :
    List CandidateSolution → List CandidateSolution
  | [] => [c]
  | d :: rest =>
    if c.fitness.finalScore < d.fitness.finalScore then
      d :: insertByFinalScoreDesc c rest
    else c :: d :: rest

/-- `array.sort((a, b) => b.fitness.finalScore - a.fitness.finalScore)`.
ECMAScript requires `Array.prototype.sort` to be stable, and a stable sort's
output under a consistent comparator is unique, so this stable insertion
sort computes exactly the array the source's sort produces. -/
def sortedByFinalScoreDesc : List CandidateSolution → List CandidateSolution
  | [] => []
  | c :: rest => insertByFinalScoreDesc c (sortedByFinalScoreDesc rest)

/-- The candidate record `addProgram` builds and stores. -/
def mkCandidate (solution : String) (fitness : Fitness) (iteration : ℕ)
    (parentId : Option String) (feedback : Option String)
    (generationPrompt : Option String) (feedbackPrompt : Option String)
    (id : String) (now : ℤ) : CandidateSolution :=
  { id := id, solution := solution, fitness := fitness,
    iteration := iteration, parent := parentId, timestamp := now,
    feedback := feedback, generationPrompt := generationPrompt,
    feedbackPrompt := feedbackPrompt }

/-- The best-pointer update test of `addProgram` (part_012, lines 85–91),
evaluated — as in the source — against the map state after the `set`:
update when no best is tracked, when the tracked id does not resolve, or
when the new final score strictly exceeds the incumbent's (`|| 0` applied
to the incumbent's score, which is the identity on rationals). -/
def updateBestCheck (programsAfterSet : List CandidateSolution)
    (oldBest : Option String) (newFinalScore : ℚ) : Bool :=
  match oldBest with
  | none => true
  | some b =>
    match programsAfterSet.find? (fun c => c.id = b) with
    | none => true
    | some bc => decide (jsOrZero bc.fitness.finalScore < newFinalScore)

/-- `addProgram(solution, fitness, iteration, parentId?, feedback?,
generationPrompt?, feedbackPrompt?)` (part_012, lines 47–94). The generated
unique id (timestamp + random bytes) and the clock reading are explicit
arguments. Fitness here is a pure value, so the shallow/deep copy of the
source is the identity; the reference-level copy behaviour is modelled in
`FitnessHeap.fitnessCopy`. Returns the created candidate and the new state. -/
def addProgram (db : ProgramDatabase) (solution : String) (fitness : Fitness)
    (iteration : ℕ) (parentId : Option String) (feedback : Option String)
    (generationPrompt : Option String) (feedbackPrompt : Option String)
    (id : String) (now : ℤ) : CandidateSolution × ProgramDatabase :=
  let candidate : CandidateSolution :=
    mkCandidate solution fitness iteration parentId feedback
      generationPrompt feedbackPrompt id now
  let db1 : ProgramDatabase := { db with programs := mapSet db.programs candidate }
  (candidate,
   if updateBestCheck db1.programs db.bestProgramId fitness.finalScore then
     { db1 with bestProgramId := some id }
   else db1)

/-- `getBestProgram()` (part_012, lines 109–120): empty map gives `null`;
a truthy cached id that is present in the map is used directly; otherwise a
full descending sort and its first element. -/
def getBestProgram (db : ProgramDatabase) : Option CandidateSolution :=
  if db.programs.isEmpty then none
  else
    let cached : Option CandidateSolution :=
      match db.bestProgramId with
      | some b => if strTruthy b && (db.getProgram b).isSome then db.getProgram b else none
      | none => none
    match cached with
    | some c => some c
    | none => (sortedByFinalScoreDesc db.programs).head?

/-- The positive-score candidates ranked descending, then the top
`min topN sorted.length` slice — the pool `sampleProgram` draws from. -/
def topCandidates (db : ProgramDatabase) (topN : ℕ) : List CandidateSolution :=
  let sorted := sortedByFinalScoreDesc
    (db.programs.filter (fun c => decide (0 < c.fitness.finalScore)))
  sorted.take (min topN sorted.length)

/-- `sampleProgram(topN)` (part_012, lines 127–141). `randomIndex` stands for
`Math.floor(Math.random() * topCandidates.length)`; JS indexing out of range
yields `undefined`, modelled by `Option`. -/
def sampleProgram (db : ProgramDatabase) (topN : ℕ) (randomIndex : ℕ) :
    Option CandidateSolution :=
  if db.programs.isEmpty then none
  else (db.topCandidates topN).get? randomIndex

/-- The `getLineage` while-loop (part_012, lines 148–162), indexed by fuel:
`none` means the loop did not finish within `fuel` iterations. A falsy
(empty) current id ends the loop, as does a missing candidate; otherwise the
candidate is prepended to the front of the chain being accumulated (so the
oldest ancestor ends up first) and the walk follows its `parent`. -/
def getLineageFuel (db : ProgramDatabase) :
    ℕ → Option String → Option (List CandidateSolution)
  | _, none => some []
  | 0, some _ => none
  | fuel + 1, some cid =>
    if cid = "" then some []
    else
      match db.getProgram cid with
      | none => some []
      | some c => (getLineageFuel db fuel c.parent).map (fun rest => rest ++ [c])

/-- Filter criteria (part_012 `FilterOptions`). -/
structure FilterOptions where
  minQualityScore : Option ℚ
  minEfficiencyScore : Option ℚ
  minFinalScore : Option ℚ
  iterationRange : Option (ℕ × ℕ)
  hasParent : Option Bool
  hasFeedback : Option Bool
deriving DecidableEq

/-- The conjunction of filter predicates applied to one candidate by
`filterPrograms` (part_012, lines 169–215). `Boolean(candidate.parent)` and
`Boolean(candidate.feedback && candidate.feedback.length > 0)` follow JS
truthiness. -/
def matchesFilter (options : FilterOptions) (c : CandidateSolution) : Bool :=
  (match options.minQualityScore with
   | none => true
   | some m => decide (m ≤ c.fitness.qualityScore)) &&
  (match options.minEfficiencyScore with
   | none => true
   | some m => decide (m ≤ c.fitness.efficiencyScore)) &&
  (match options.minFinalScore with
   | none => true
   | some m => decide (m ≤ c.fitness.finalScore)) &&
  (match options.iterationRange with
   | none => true
   | some r => decide (r.1 ≤ c.iteration) && decide (c.iteration ≤ r.2)) &&
  (match options.hasParent with
   | none => true
   | some hp => (match c.parent with
                 | some p => strTruthy p
                 | none => false) = hp) &&
  (match options.hasFeedback with
   | none => true
   | some hf => (match c.feedback with
                 | some f => decide (0 < f.length)
                 | none => false) = hf)

/-- `filterPrograms(options)` as list contents; freshness of the returned
array is modelled in `ArrWorld`. -/
def filterPrograms (db : ProgramDatabase) (options : FilterOptions) :
    List CandidateSolution :=
  db.programs.filter (matchesFilter options)

/-- `setMetadata(key, value)`. -/
def setMetadata (db : ProgramDatabase) (key : String) (value : MetaVal) :
    ProgramDatabase :=
  { db with metadata := objSet db.metadata key value }

/-- `getMetadata(key)`: `none` models JS `undefined` (key absent). -/
def getMetadata (db : ProgramDatabase) (key : String) : Option MetaVal :=
  (db.metadata.find? (fun p => p.1 = key)).map (fun p => p.2)

end ProgramDatabase

/-- The persisted document shape (part_012 `SerializedDatabase`), as produced
by `JSON.parse`: the version tag and the metadata bag may be absent in
foreign or older documents. -/
structure SerializedDatabase where
  version : Option String
  timestamp : ℤ
  programs : List CandidateSolution
  metadata : Option (List (String × MetaVal))
deriving DecidableEq

namespace ProgramDatabase

/-- `toJSON()` (part_012, lines 261–268): the object spread of
`this.metadata` extended with the `bestProgramId` key overwrites that key in
place or appends it. -/
def toJSON (db : ProgramDatabase) (now : ℤ) : SerializedDatabase :=
  { version := some "1.1",
    timestamp := now,
    programs := db.getAllPrograms,
    metadata := some (objSet db.metadata "bestProgramId"
      (match db.bestProgramId with
       | some b => MetaVal.str b
       | none => MetaVal.null)) }

/-- `parsed.metadata.bestProgramId || null`: only a truthy (non-empty) string
value survives; `null`, an absent key, or `""` give `null`. -/
def jsOrNullStr : Option MetaVal → Option String
  | some (MetaVal.str s) => if s = "" then none else some s
  | some MetaVal.null => none
  | none => none

/-- `loadFromFile` after `JSON.parse` (part_012, lines 325–362): replay the
programs into the map, take the metadata bag (or an empty one), adopt a
truthy persisted best id unchecked, and only when it is falsy re-derive the
best id by `getBestProgram` on the freshly built state. -/
def loadFromFile (doc : SerializedDatabase) : ProgramDatabase :=
  let programs := doc.programs.foldl mapSet []
  let metadata := doc.metadata.getD []
  let db0 : ProgramDatabase :=
    { programs := programs, metadata := metadata, bestProgramId := none }
  match jsOrNullStr ((metadata.find? (fun p => p.1 = "bestProgramId")).map (fun p => p.2)) with
  | some b => { db0 with bestProgramId := some b }
  | none =>
    match db0.getBestProgram with
    | some c => { db0 with bestProgramId := some c.id }
    | none => db0

end ProgramDatabase

/-- A generated id is usable as a fresh key: non-empty (the source format is
`base36 time + "-" + 12 hex chars`) and not colliding with a stored id. -/
def freshId (db : ProgramDatabase) (id : String) : Prop :=
  id ≠ "" ∧ ∀ c ∈ db.programs, c.id ≠ id

instance (db : ProgramDatabase) (id : String) : Decidable (freshId db id) := by
  unfold freshId
  infer_instance

/-- Ids are pairwise distinct — the store's id-uniqueness invariant. -/
def NodupIds (l : List CandidateSolution) : Prop :=
  (l.map (fun c => c.id)).Nodup

instance (l : List CandidateSolution) : Decidable (NodupIds l) := by
  unfold NodupIds
  infer_instance

/-- The best id a document persists, after the loader's truthiness
filtering. -/
def PersistedBest (doc : SerializedDatabase) : Option String :=
  ProgramDatabase.jsOrNullStr
    (((doc.metadata.getD []).find? (fun p => p.1 = "bestProgramId")).map (fun p => p.2))

/-- The persisted best id, when present, is accurate: it names a stored
candidate of maximal final score. Documents produced by `toJSON` from a
well-maintained store satisfy this; externally drifted documents need not. -/
def GoodPersistedBest (doc : SerializedDatabase) : Prop :=
  ∀ b, PersistedBest doc = some b →
    ∃ c ∈ doc.programs, c.id = b ∧
      ∀ d ∈ doc.programs, d.fitness.finalScore ≤ c.fitness.finalScore

/-- `rk` ranks ids so that every resolvable parent reference points strictly
down: the lineage graph is a forest, as the data model requires. For any
store built by `addProgram` the insertion position is such a ranking, since
a candidate's parent id is fixed before the ids of later insertions exist. -/
def ParentRanked (db : ProgramDatabase) (rk : String → ℕ) : Prop :=
  ∀ c ∈ db.programs, ∀ d ∈ db.programs, c.parent = some d.id → rk d.id < rk c.id

instance (db : ProgramDatabase) (rk : String → ℕ) :
    Decidable (ParentRanked db rk) := by
  unfold ParentRanked
  infer_instance

/-- Every element of the chain is stored and retrievable under its own id. -/
def StoredChain (db : ProgramDatabase) (l : List CandidateSolution) : Prop :=
  ∀ c ∈ l, db.getProgram c.id = some c

/-- Adjacent chain elements are linked child-after-parent (oldest first). -/
def LinkedChain (l : List CandidateSolution) : Prop :=
  List.Chain' (fun x y => y.parent = some x.id) l

/-- The oldest element's parent reference, if any, does not resolve: the walk
stopped at a root or at a dangling parent id. -/
def HeadStops (db : ProgramDatabase) (l : List CandidateSolution) : Prop :=
  ∀ c, l.head? = some c → ∀ p, c.parent = some p → p = "" ∨ db.getProgram p = none

/-- The chain belongs to the queried id: empty exactly when the id is falsy
or absent, and otherwise ending (newest position) at the queried candidate. -/
def EndsAt (db : ProgramDatabase) (id : String) (l : List CandidateSolution) : Prop :=
  if id = "" then l = []
  else
    (l = [] ∧ db.getProgram id = none) ∨
    (∃ c, db.getProgram id = some c ∧ l.getLast? = some c)

/-- Full specification of a returned lineage chain for `id`. -/
def LineageSpec (db : ProgramDatabase) (id : String)
    (l : List CandidateSolution) : Prop :=
  StoredChain db l ∧ LinkedChain l ∧ HeadStops db l ∧ EndsAt db id l

/-- The constraint relating `Math.floor(Math.random() * len)` to `len`:
strictly below `len` when the array is non-empty, and exactly 0 on the empty
array (where the subsequent index read yields `undefined`). -/
def randOk (len ri : ℕ) : Prop :=
  if len = 0 then ri = 0 else ri < len

instance (len ri : ℕ) : Decidable (randOk len ri) := by
  unfold randOk
  infer_instance

/-- Database states reachable from the empty store by `addProgram` calls with
fresh generated ids. -/
inductive Reachable : ProgramDatabase → Prop
  | empty : Reachable ProgramDatabase.empty
  | add (db : ProgramDatabase) (solution : String) (fitness : Fitness)
      (iteration : ℕ) (parentId : Option String) (feedback : Option String)
      (generationPrompt : Option String) (feedbackPrompt : Option String)
      (id : String) (now : ℤ) :
      Reachable db → freshId db id →
      Reachable (db.addProgram solution fitness iteration parentId feedback
        generationPrompt feedbackPrompt id now).2

/-- The best-pointer invariant the spec states for the store: on a non-empty
store the cached id names a stored candidate of maximal final score and
`getBestProgram` returns that candidate; on an empty store both are absent. -/
def BestInv (db : ProgramDatabase) : Prop :=
  (db.programs = [] → db.bestProgramId = none ∧ db.getBestProgram = none) ∧
  (db.programs ≠ [] → ∃ b c, db.bestProgramId = some b ∧ b ≠ "" ∧
    db.getProgram b = some c ∧
    (∀ d ∈ db.programs, d.fitness.finalScore ≤ c.fitness.finalScore) ∧
    db.getBestProgram = some c)

/-! ## Reference-level model of the fitness copy in `addProgram`

`addProgram` builds the stored fitness as a shallow spread of the caller's
fitness object, with one extra step: when a `performanceMetrics` field is
present, it is replaced by `JSON.parse(JSON.stringify(...))` of itself — a
deep copy into a fresh object. Nested object-valued metrics stored under any
other key are copied by reference. To reason about caller-side mutation this
namespace makes object identity explicit: metric objects live in a heap and
a fitness value holds references into it. -/

namespace FitnessHeap

/-- A nested metric object: a JSON object of named numbers. -/
structure MetricObj where
  fields : List (String × ℚ)
deriving DecidableEq

/-- The object heap; a reference is an index, allocation appends. -/
structure Heap where
  objs : List MetricObj
deriving DecidableEq

/-- Dereference (out-of-range reads give the empty object; all references
used in the theorems are valid). -/
def readObj (h : Heap) (r : ℕ) : MetricObj :=
  h.objs.getD r ⟨[]⟩

/-- `obj[k] = v` on a metric object. -/
def setField (o : MetricObj) (k : String) (v : ℚ) : MetricObj :=
  ⟨if o.fields.any (fun p => p.1 = k) then
     o.fields.map (fun p => if p.1 = k then (k, v) else p)
   else o.fields ++ [(k, v)]⟩

/-- A caller-side mutation of a nested metric object it holds a reference
to, e.g. `fitness.performanceMetrics.executionTime = 0`. -/
def mutateObj (h : Heap) (r : ℕ) (k : String) (v : ℚ) : Heap :=
  ⟨h.objs.set r (setField (readObj h r) k v)⟩

/-- A fitness object as the caller passes it to `addProgram`: the scalar
scores are copied by the spread; each additional object-valued metric and the
optional `performanceMetrics` field are references into the heap. -/
structure FitnessVal where
  qualityScore : ℚ
  efficiencyScore : ℚ
  finalScore : ℚ
  extraObjs : List (String × ℕ)
  performanceMetrics : Option ℕ
deriving DecidableEq

/-- The fully dereferenced snapshot of a fitness value — what an observer of
the stored candidate sees. -/
structure FitnessView where
  qualityScore : ℚ
  efficiencyScore : ℚ
  finalScore : ℚ
  extraObjs : List (String × MetricObj)
  performanceMetrics : Option MetricObj
deriving DecidableEq

/-- Dereference a fitness value through the heap. -/
def viewFitness (h : Heap) (f : FitnessVal) : FitnessView :=
  { qualityScore := f.qualityScore,
    efficiencyScore := f.efficiencyScore,
    finalScore := f.finalScore,
    extraObjs := f.extraObjs.map (fun p => (p.1, readObj h p.2)),
    performanceMetrics := f.performanceMetrics.map (readObj h) }

/-- The copy `addProgram` performs (part_012, lines 62–68): the spread keeps
every reference as-is; a present `performanceMetrics` is deep-copied into a
freshly allocated object. Returns the stored fitness and the heap after the
allocation. -/
def fitnessCopy (h : Heap) (f : FitnessVal) : FitnessVal × Heap :=
  match f.performanceMetrics with
  | none => (f, h)
  | some r =>
    ({ f with performanceMetrics := some h.objs.length },
     ⟨h.objs ++ [readObj h r]⟩)

end FitnessHeap

/-! ## Allocation model for array-returning queries

`getAllPrograms` builds its result with `Array.from(...)` and
`filterPrograms` with `Array.prototype.filter`, both of which allocate a new
array. This world makes the allocation explicit so that caller-side mutation
of a returned array can be expressed. -/

namespace ArrWorld

/-- The array heap: a reference is an index, allocation appends. The store's
own state is a `Map`, not an element of this heap. -/
structure World where
  arrays : List (List CandidateSolution)
deriving DecidableEq

/-- Allocate a fresh array with the given contents. -/
def allocArr (w : World) (l : List CandidateSolution) : ℕ × World :=
  (w.arrays.length, ⟨w.arrays ++ [l]⟩)

/-- Read an array through its reference. -/
def readArr (w : World) (r : ℕ) : List CandidateSolution :=
  w.arrays.getD r []

/-- A caller-side mutation (push, pop, splice, ...) replacing the contents of
the array behind `r`. -/
def writeArr (w : World) (r : ℕ) (l : List CandidateSolution) : World :=
  ⟨w.arrays.set r l⟩

/-- `getAllPrograms()` with its allocation: `Array.from(map.values())`. -/
def getAllProgramsAlloc (db : ProgramDatabase) (w : World) : ℕ × World :=
  allocArr w db.getAllPrograms

/-- `filterPrograms(options)` with its allocation: `array.filter(...)`. -/
def filterProgramsAlloc (db : ProgramDatabase)
    (options : ProgramDatabase.FilterOptions) (w : World) : ℕ × World :=
  allocArr w (db.filterPrograms options)

end ArrWorld

/-! ## SandboxRunner (`safeEval`)

`safeEval` (part_011, lines 83–341) writes a generated worker script to a
unique temporary path, starts a `Worker` on it, and settles its promise from
the first of: a message posted by the worker, a worker `error` event, an
abnormal `exit`, or the timeout firing (which forcibly terminates the
worker). An older variant of the same function, `src/safeEval.ts` (lines
44–177), has the same settle structure but never deletes the temporary file.

The worker's own behaviour is abstracted as follows. A candidate source
text carries two denotations: the function obtained by compiling the raw
source with `new Function(code + "return " + functionName)()` — this is
what "direct invocation of the bound function" means — and the function
obtained by compiling the regex-instrumented rewrite of the source
(part_011, lines 162–182). Each denotation maps an input value to a call
behaviour (return a value after some wall-clock time, throw after some
time, or never finish); a compile that throws (a syntax error, or
`functionName` unbound when the trailing `return` runs) is `Except.error`.

The worker's selection logic (part_011, lines 162–186): with
`trackDetailedStats` set (the default), it first tries the instrumented
build — if that throws it falls back to the raw source, and otherwise it
executes the instrumented function, wrapped with a call counter whose
`return rawFn(...args)` passes the wrapped function's behaviour through
unchanged. With `trackDetailedStats` unset it executes the raw function.
The two denotations need not agree: the rewrite
`code.replace(/\bfor\s*\([^;]*;[^;]*;[^\)]*\)/g, m => m + " { loopIterations++; ")`
usually breaks the syntax (the inserted block is unbalanced) and the
fallback restores raw behaviour, but the pattern can also match inside a
string literal, in which case the instrumented source still compiles and
computes different values (see the C1 counterexample). A failed selected
compile is an in-worker exception posted as a failure message, like a
throwing candidate. The older `src/safeEval.ts` variant has no
instrumentation and always executes the raw function. The worker dying
without posting any message (an abnormal exit) is an environment event. -/

namespace Sandbox

/-- Structured-clone-transportable values passed in and out of the worker. -/
inductive JsValue where
  | num (q : ℚ)
  | str (s : String)
  | jbool (b : Bool)
  | jnull
  | arrNum (l : List ℚ)
deriving DecidableEq

/-- One call of the compiled candidate function on one input: it returns a
value after `duration` milliseconds of wall clock, throws after some time,
or never completes. Durations are non-negative in any monotone-clock run;
theorems carry that as a hypothesis. -/
inductive CallBehavior where
  | completes (value : JsValue) (duration : ℚ)
  | throwsErr (msg : String) (duration : ℚ)
  | diverges
deriving DecidableEq

/-- Denotation of the function the source binds to `functionName`. -/
abbrev JsFun := JsValue → CallBehavior

/-- The worker's heuristic out-of-memory classification (part_011, lines
246–249): the error message contains one of three substrings. -/
def isMemoryErrorMsg (m : String) : Bool :=
  decide ("allocation failed".data <:+: m.data) ||
  decide ("heap".data <:+: m.data) ||
  decide ("memory".data <:+: m.data)

/-- The single structured message a worker posts. -/
inductive WorkerMsg where
  | success (result : JsValue) (executionTime : ℚ)
  | failure (error : String) (memoryLimitExceeded : Bool)
deriving DecidableEq

/-- What the worker does, as seen from the parent: post a message at some
time, exit abnormally without a message at some time, or never produce
anything. -/
inductive WorkerEvent where
  | msg (m : WorkerMsg) (at_ : ℚ)
  | crashed (exitCode : ℤ) (at_ : ℚ)
  | hangs
deriving DecidableEq

/-- The two compilation results a candidate source gives rise to inside the
worker: `raw` is `new Function(code + "return " + functionName)()` — direct
invocation of the bound function invokes this one — and `instrumented` is
the same build applied to the regex-rewritten source (`Except.error` is the
thrown error's message in either case). The rewrite is textual, so the two
functions need not agree. -/
structure SourceDenotation where
  raw : Except String JsFun
  instrumented : Except String JsFun

/-- The function the worker actually executes (part_011, lines 162–186):
with `trackDetailedStats` it prefers the instrumented build and falls back
to the raw source only when that build throws; the call-counting wrapper
returns the wrapped function's value unchanged, so the executed denotation
is the instrumented one whenever it compiles. Without `trackDetailedStats`
the raw function is executed. -/
def workerSelectFn (trackDetailedStats : Bool) (den : SourceDenotation) :
    Except String JsFun :=
  if trackDetailedStats then
    match den.instrumented with
    | Except.ok ifn => Except.ok ifn
    | Except.error _ => den.raw
  else den.raw

/-- Environment of one `safeEval` call: whether writing the temporary script
succeeds, whether the `Worker` constructor succeeds, the candidate source's
two compilation results inside the worker, the `trackDetailedStats` option
(default `true`), and an optional abnormal death of the worker. -/
structure EvalEnv where
  writeOk : Bool
  workerStartOk : Bool
  den : SourceDenotation
  trackDetailedStats : Bool
  crash : Option (ℤ × ℚ)

/-- The worker event induced by the environment and the input (part_011):
the executed function is the one `workerSelectFn` picks; a compile that
throws is caught and posted as a failure message. -/
def workerEvent (env : EvalEnv) (input : JsValue) : WorkerEvent :=
  match env.crash with
  | some (c, t) => WorkerEvent.crashed c t
  | none =>
    match workerSelectFn env.trackDetailedStats env.den with
    | Except.error e => WorkerEvent.msg (WorkerMsg.failure e (isMemoryErrorMsg e)) 0
    | Except.ok fn =>
      match fn input with
      | CallBehavior.completes v d => WorkerEvent.msg (WorkerMsg.success v d) d
      | CallBehavior.throwsErr m d =>
        WorkerEvent.msg (WorkerMsg.failure m (isMemoryErrorMsg m)) d
      | CallBehavior.diverges => WorkerEvent.hangs

/-- The worker event of the older `src/safeEval.ts` variant, which has no
instrumentation: it always executes the raw function. -/
def workerEventV1 (env : EvalEnv) (input : JsValue) : WorkerEvent :=
  match env.crash with
  | some (c, t) => WorkerEvent.crashed c t
  | none =>
    match env.den.raw with
    | Except.error e => WorkerEvent.msg (WorkerMsg.failure e (isMemoryErrorMsg e)) 0
    | Except.ok fn =>
      match fn input with
      | CallBehavior.completes v d => WorkerEvent.msg (WorkerMsg.success v d) d
      | CallBehavior.throwsErr m d =>
        WorkerEvent.msg (WorkerMsg.failure m (isMemoryErrorMsg m)) d
      | CallBehavior.diverges => WorkerEvent.hangs

/-- How a `safeEval` promise settles. -/
inductive SettleOutcome where
  | resolved (result : JsValue) (executionTime : ℚ)
  | rejectedTimeout
  | rejectedError (msg : String)
  | rejectedCrash (exitCode : ℤ)
  | rejectedSetup
  | pending
deriving DecidableEq

/-- Observable end state of one call: how the promise settled, whether the
temporary worker script still exists, and whether `worker.terminate()` was
invoked. -/
structure EvalEnd where
  outcome : SettleOutcome
  tempFileExists : Bool
  workerTerminated : Bool
deriving DecidableEq

/-- The settle function of `safeEval` (part_011). An event strictly before
`timeoutMs` wins the race against the timer; otherwise the timeout callback
rejects with the timeout error and terminates the worker. Every message /
error / exit / timeout handler unlinks the temporary file when
`cleanupFiles` is set; the setup `catch` (a `Worker` constructor throw after
the file was written) does not. An abnormal exit with a non-zero code
rejects; exit code 0 without a message settles nothing. -/
def safeEval (env : EvalEnv) (input : JsValue) (timeoutMs : ℚ)
    (cleanupFiles : Bool) : EvalEnd :=
  if !env.writeOk then
    { outcome := SettleOutcome.rejectedSetup, tempFileExists := false,
      workerTerminated := false }
  else if !env.workerStartOk then
    { outcome := SettleOutcome.rejectedSetup, tempFileExists := true,
      workerTerminated := false }
  else
    match workerEvent env input with
    | WorkerEvent.hangs =>
      { outcome := SettleOutcome.rejectedTimeout, tempFileExists := !cleanupFiles,
        workerTerminated := true }
    | WorkerEvent.msg m t =>
      if t < timeoutMs then
        match m with
        | WorkerMsg.success v et =>
          { outcome := SettleOutcome.resolved v et, tempFileExists := !cleanupFiles,
            workerTerminated := false }
        | WorkerMsg.failure e mflag =>
          { outcome := SettleOutcome.rejectedError
              (if mflag then "Memory limit exceeded: " ++ e else e),
            tempFileExists := !cleanupFiles, workerTerminated := false }
      else
        { outcome := SettleOutcome.rejectedTimeout, tempFileExists := !cleanupFiles,
          workerTerminated := true }
    | WorkerEvent.crashed c t =>
      if t < timeoutMs then
        if c ≠ 0 then
          { outcome := SettleOutcome.rejectedCrash c, tempFileExists := !cleanupFiles,
            workerTerminated := false }
        else
          { outcome := SettleOutcome.pending, tempFileExists := !cleanupFiles,
            workerTerminated := false }
      else
        { outcome := SettleOutcome.rejectedTimeout, tempFileExists := !cleanupFiles,
          workerTerminated := true }

/-- The settle function of the older variant `src/safeEval.ts` (lines
44–177): identical structure, except that no handler ever deletes the
temporary worker script, failure messages are re-thrown verbatim, and the
worker has no instrumentation (it executes the raw function). -/
def safeEvalV1 (env : EvalEnv) (input : JsValue) (timeoutMs : ℚ) : EvalEnd :=
  if !env.writeOk then
    { outcome := SettleOutcome.rejectedSetup, tempFileExists := false,
      workerTerminated := false }
  else if !env.workerStartOk then
    { outcome := SettleOutcome.rejectedSetup, tempFileExists := true,
      workerTerminated := false }
  else
    match workerEventV1 env input with
    | WorkerEvent.hangs =>
      { outcome := SettleOutcome.rejectedTimeout, tempFileExists := true,
        workerTerminated := true }
    | WorkerEvent.msg m t =>
      if t < timeoutMs then
        match m with
        | WorkerMsg.success v et =>
          { outcome := SettleOutcome.resolved v et, tempFileExists := true,
            workerTerminated := false }
        | WorkerMsg.failure e _ =>
          { outcome := SettleOutcome.rejectedError e, tempFileExists := true,
            workerTerminated := false }
      else
        { outcome := SettleOutcome.rejectedTimeout, tempFileExists := true,
          workerTerminated := true }
    | WorkerEvent.crashed c t =>
      if t < timeoutMs then
        if c ≠ 0 then
          { outcome := SettleOutcome.rejectedCrash c, tempFileExists := true,
            workerTerminated := false }
        else
          { outcome := SettleOutcome.pending, tempFileExists := true,
            workerTerminated := false }
      else
        { outcome := SettleOutcome.rejectedTimeout, tempFileExists := true,
          workerTerminated := true }

/-- The call does not produce any event before the timer fires. -/
def timesOut (env : EvalEnv) (input : JsValue) (timeoutMs : ℚ) : Prop :=
  match workerEvent env input with
  | WorkerEvent.hangs => True
  | WorkerEvent.msg _ t => timeoutMs ≤ t
  | WorkerEvent.crashed _ t => timeoutMs ≤ t

end Sandbox

/-! ## SuiteRunner (`BenchmarkRunner`)

`BenchmarkRunner.evaluate` (src/src/core/BenchmarkRunner.ts, lines 48–137)
captures the target file's content the first time it runs (only when the
file exists), overwrites the target with the candidate, runs the external
test command, computes scores, and in a `finally` block writes the captured
content back (only when one was captured). `runTests` resolves `false` on a
spawn `error` event and resolves the exit-code comparison otherwise; any
exception inside the `try` is caught and mapped to the all-zero fitness. -/

namespace Benchmark

/-- The three scores `evaluate` returns. -/
structure FitnessScores where
  qualityScore : ℚ
  efficiencyScore : ℚ
  finalScore : ℚ
deriving DecidableEq

/-- How one evaluation run goes: the test subprocess exits 0 after `duration`
ms (tests passed), exits non-zero (tests failed), cannot be spawned at all,
or some step inside the `try` block throws. -/
inductive TestOutcome where
  | exitZero (duration : ℚ)
  | exitNonZero (duration : ℚ)
  | spawnError
  | stepThrows
deriving DecidableEq

/-- Instance state of the runner: the captured original content, `none`
until a first `evaluate` call finds the target file present. -/
structure RunnerState where
  originalContent : Option String
deriving DecidableEq

/-- `evaluate(solution)` as a state transformer over the runner state and the
target file (`none` means the file does not exist). Returns the fitness, the
runner state, and the target file's content after the call. -/
def evaluate (rs : RunnerState) (file : Option String) (solution : String)
    (outcome : TestOutcome) : FitnessScores × RunnerState × Option String :=
  -- 1. backup: only on the first call, and only if the file exists
  let rs1 : RunnerState :=
    if rs.originalContent = none then { originalContent := file } else rs
  -- 2. the candidate is written over the target (file now exists)
  -- 3.–5. run the tests and score, with the catch block absorbing throws
  let scores : FitnessScores :=
    match outcome with
    | TestOutcome.exitZero d =>
      let e : ℚ := 1000 / (1000 + d)
      { qualityScore := 1, efficiencyScore := e,
        finalScore := 1 * (7 / 10) + e * (3 / 10) }
    | TestOutcome.exitNonZero _ =>
      { qualityScore := 0, efficiencyScore := 0, finalScore := 0 }
    | TestOutcome.spawnError =>
      { qualityScore := 0, efficiencyScore := 0, finalScore := 0 }
    | TestOutcome.stepThrows =>
      { qualityScore := 0, efficiencyScore := 0, finalScore := 0 }
  -- 6. finally: restore the captured content when one was captured
  let fileAfter : Option String :=
    match rs1.originalContent with
    | some c => some c
    | none => some solution
  (scores, rs1, fileAfter)

end Benchmark

/-! ## Concrete states used by witnesses and counterexamples -/

namespace Examples

/-- Fitness with the three scores and no extra metrics. -/
def fit (q e f : ℚ) : Fitness :=
  { qualityScore := q, efficiencyScore := e, finalScore := f, metrics := [] }

/-- One insertion: a single candidate with final score 1 under id "a". -/
def dbOne : ProgramDatabase :=
  (ProgramDatabase.empty.addProgram "function foo() {}" (fit 1 1 1)
    0 none none none none "a" 0).2

/-- One insertion with final score 0.5 (the spec's example), id "a1". -/
def dbHalf : ProgramDatabase :=
  (ProgramDatabase.empty.addProgram "a" (fit (mkRat 1 2) (mkRat 1 2) (mkRat 1 2))
    0 none none none none "a1" 0).2

/-- Second insertion with final score 0.9 on top of `dbHalf`, id "b1". -/
def dbBest : ProgramDatabase :=
  (dbHalf.addProgram "b" (fit (mkRat 9 10) (mkRat 9 10) (mkRat 9 10))
    1 none none none none "b1" 1).2

/-- Chain store: A (no parent) ← B (parent A) ← C (parent B), plus a
parentless X. -/
def chainA : ProgramDatabase :=
  (ProgramDatabase.empty.addProgram "A" (fit 1 1 1)
    0 none none none none "a" 0).2

/-- After inserting B with parent A. -/
def chainAB : ProgramDatabase :=
  (chainA.addProgram "B" (fit 1 1 2) 1 (some "a") none none none "b" 1).2

/-- After inserting C with parent B. -/
def chainABC : ProgramDatabase :=
  (chainAB.addProgram "C" (fit 1 1 3) 2 (some "b") none none none "c" 2).2

/-- After inserting the parentless X. -/
def chainDb : ProgramDatabase :=
  (chainABC.addProgram "X" (fit 1 1 4) 3 none none none none "x" 3).2

/-- Insertion rank of the chain ids. -/
def chainRk (s : String) : ℕ :=
  if s = "a" then 0 else if s = "b" then 1 else if s = "c" then 2 else 3

/-- A stored candidate with id "low" and final score 1, as it would appear
in a persisted document. -/
def cLow : CandidateSolution :=
  { id := "low", solution := "l", fitness := fit 1 1 1, iteration := 0,
    parent := none, timestamp := 0, feedback := none,
    generationPrompt := none, feedbackPrompt := none }

/-- A stored candidate with id "high" and final score 2. -/
def cHigh : CandidateSolution :=
  { id := "high", solution := "h", fitness := fit 2 2 2, iteration := 1,
    parent := none, timestamp := 0, feedback := none,
    generationPrompt := none, feedbackPrompt := none }

/-- A persisted document whose metadata carries a stale best id: it names
the stored candidate "low" although "high" has the larger final score. Such
a document is exactly the "on-disk format drift" the spec's loader is
required to repair by a full re-scan. -/
def staleDoc : SerializedDatabase :=
  { version := some "1.1", timestamp := 0, programs := [cHigh, cLow],
    metadata := some [("bestProgramId", MetaVal.str "low")] }

/-- A heap with a single metric object, holding field "v" = 0. -/
def heap0 : FitnessHeap.Heap :=
  { objs := [{ fields := [("v", 0)] }] }

/-- A caller fitness whose open-ended metrics map holds, under key "m", a
reference to the heap object — and no `performanceMetrics`. -/
def fitShared : FitnessHeap.FitnessVal :=
  { qualityScore := 1, efficiencyScore := 1, finalScore := 1,
    extraObjs := [("m", 0)], performanceMetrics := none }

/-- Denotation of a loop-free candidate whose bound function is
identity-like, completing in 1 ms: the instrumented build throws (the usual
case — the regex rewrite inserts an unbalanced block), so the worker falls
back to the raw source. -/
def denId : Sandbox.SourceDenotation :=
  { raw := Except.ok (fun v => Sandbox.CallBehavior.completes v 1),
    instrumented := Except.error "SyntaxError: Unexpected end of input" }

/-- The environment of a well-behaved sandbox call: setup succeeds, the
candidate is `denId`, stats tracking is on (the default), and the worker
does not crash. -/
def envOk : Sandbox.EvalEnv :=
  { writeOk := true, workerStartOk := true, den := denId,
    trackDetailedStats := true, crash := none }

/-- The environment in which the worker script was written but the `Worker`
constructor throws. -/
def envCtorFail : Sandbox.EvalEnv :=
  { writeOk := true, workerStartOk := false, den := denId,
    trackDetailedStats := true, crash := none }

/-- The environment of a call on a candidate with an infinite loop: neither
build of the candidate ever completes. -/
def envHang : Sandbox.EvalEnv :=
  { writeOk := true, workerStartOk := true,
    den := { raw := Except.ok (fun _ => Sandbox.CallBehavior.diverges),
             instrumented := Except.error "SyntaxError: Unexpected end of input" },
    trackDetailedStats := true, crash := none }

/-- Direct-invocation denotation of
`function f(x) { return "for(a;b;c)".length; }`: the bound function returns
the string literal's length, 10. -/
def rawStrLitFn : Sandbox.JsFun := fun _ =>
  Sandbox.CallBehavior.completes
    (Sandbox.JsValue.num (("for(a;b;c)".length : ℕ) : ℚ)) 1

/-- Denotation of the regex-instrumented rewrite of the same source: the
pattern of part_011 line 164 matches `for(a;b;c)` inside the string
literal and inserts ` { loopIterations++; ` after it — still inside the
literal — so the instrumented source compiles and its function returns the
lengthened literal's length, 31. -/
def instrStrLitFn : Sandbox.JsFun := fun _ =>
  Sandbox.CallBehavior.completes
    (Sandbox.JsValue.num (("for(a;b;c) \x7b loopIterations++; ".length : ℕ) : ℚ)) 1

/-- The two compilation results of
`function f(x) { return "for(a;b;c)".length; }`: both builds compile, but
they compute different values. -/
def denStrLit : Sandbox.SourceDenotation :=
  { raw := Except.ok rawStrLitFn, instrumented := Except.ok instrStrLitFn }

/-- A well-behaved call on that source with the default
`trackDetailedStats: true`. -/
def envStrLit : Sandbox.EvalEnv :=
  { writeOk := true, workerStartOk := true, den := denStrLit,
    trackDetailedStats := true, crash := none }

/-- A heap with one metric object holding "t" = 1, referenced below as a
`performanceMetrics` object. -/
def heapPm : FitnessHeap.Heap :=
  { objs := [{ fields := [("t", 1)] }] }

/-- A caller fitness whose `performanceMetrics` references the heap object
and which has no other object-valued metrics. -/
def fitPm : FitnessHeap.FitnessVal :=
  { qualityScore := 1, efficiencyScore := 1, finalScore := 1,
    extraObjs := [], performanceMetrics := some 0 }

end Examples

/-! ## Basic lemmas about the store's primitive operations -/

theorem jsOrZero_eq (q : ℚ) : jsOrZero q = q := by
  unfold jsOrZero
  split <;> simp_all

namespace ProgramDatabase

theorem mem_insertByFinalScoreDesc {a c : CandidateSolution} :
    ∀ {l : List CandidateSolution},
      a ∈ insertByFinalScoreDesc c l ↔ a = c ∨ a ∈ l
  | [] => by simp [insertByFinalScoreDesc]
  | d :: rest => by
    by_cases h : c.fitness.finalScore < d.fitness.finalScore
    · rw [insertByFinalScoreDesc, if_pos h]
      simp only [List.mem_cons, mem_insertByFinalScoreDesc (l := rest)]
      tauto
    · rw [insertByFinalScoreDesc, if_neg h]
      simp only [List.mem_cons]

theorem mem_sortedByFinalScoreDesc {a : CandidateSolution} :
    ∀ {l : List CandidateSolution}, a ∈ sortedByFinalScoreDesc l ↔ a ∈ l
  | [] => Iff.rfl
  | c :: rest => by
    simp only [sortedByFinalScoreDesc, mem_insertByFinalScoreDesc,
      mem_sortedByFinalScoreDesc (l := rest), List.mem_cons]

theorem pairwise_insertByFinalScoreDesc {c : CandidateSolution} :
    ∀ {l : List CandidateSolution},
      l.Pairwise (fun a b => b.fitness.finalScore ≤ a.fitness.finalScore) →
      (insertByFinalScoreDesc c l).Pairwise
        (fun a b => b.fitness.finalScore ≤ a.fitness.finalScore)
  | [], _ => by simp [insertByFinalScoreDesc]
  | d :: rest, h => by
    rcases List.pairwise_cons.mp h with ⟨hd, hrest⟩
    by_cases hc : c.fitness.finalScore < d.fitness.finalScore
    · rw [insertByFinalScoreDesc, if_pos hc]
      refine List.pairwise_cons.mpr ⟨?_, pairwise_insertByFinalScoreDesc hrest⟩
      intro x hx
      rcases mem_insertByFinalScoreDesc.mp hx with rfl | hx
      · exact le_of_lt hc
      · exact hd x hx
    · rw [insertByFinalScoreDesc, if_neg hc]
      refine List.pairwise_cons.mpr ⟨?_, h⟩
      intro x hx
      rcases List.mem_cons.mp hx with rfl | hx
      · exact le_of_not_lt hc
      · exact le_trans (hd x hx) (le_of_not_lt hc)

theorem pairwise_sortedByFinalScoreDesc :
    ∀ (l : List CandidateSolution),
      (sortedByFinalScoreDesc l).Pairwise
        (fun a b => b.fitness.finalScore ≤ a.fitness.finalScore)
  | [] => List.Pairwise.nil
  | c :: rest =>
    pairwise_insertByFinalScoreDesc (pairwise_sortedByFinalScoreDesc rest)

theorem length_insertByFinalScoreDesc (c : CandidateSolution) :
    ∀ (l : List CandidateSolution),
      (insertByFinalScoreDesc c l).length = l.length + 1
  | [] => rfl
  | d :: rest => by
    by_cases h : c.fitness.finalScore < d.fitness.finalScore
    · simp [insertByFinalScoreDesc, if_pos h, length_insertByFinalScoreDesc c rest]
    · simp [insertByFinalScoreDesc, if_neg h]

theorem length_sortedByFinalScoreDesc :
    ∀ (l : List CandidateSolution), (sortedByFinalScoreDesc l).length = l.length
  | [] => rfl
  | c :: rest => by
    simp [sortedByFinalScoreDesc, length_insertByFinalScoreDesc,
      length_sortedByFinalScoreDesc rest]

/-- The first element of the descending sort of a non-empty list is a stored
candidate of maximal final score. -/
theorem head_sortedByFinalScoreDesc {l : List CandidateSolution} (h : l ≠ []) :
    ∃ m, (sortedByFinalScoreDesc l).head? = some m ∧ m ∈ l ∧
      ∀ d ∈ l, d.fitness.finalScore ≤ m.fitness.finalScore := by
  have hlen : (sortedByFinalScoreDesc l).length = l.length :=
    length_sortedByFinalScoreDesc l
  cases hs : sortedByFinalScoreDesc l with
  | nil =>
    rw [hs] at hlen
    exact absurd (List.eq_nil_of_length_eq_zero hlen.symm) h
  | cons m t =>
    refine ⟨m, rfl, ?_, ?_⟩
    · have : m ∈ sortedByFinalScoreDesc l := by
        rw [hs]; exact List.mem_cons_self m t
      exact mem_sortedByFinalScoreDesc.mp this
    · intro d hd
      have hd' : d ∈ sortedByFinalScoreDesc l := mem_sortedByFinalScoreDesc.mpr hd
      rw [hs] at hd'
      rcases List.mem_cons.mp hd' with rfl | hd'
      · exact le_refl _
      · have hp := pairwise_sortedByFinalScoreDesc l
        rw [hs] at hp
        exact (List.pairwise_cons.mp hp).1 d hd'

theorem getProgram_id {db : ProgramDatabase} {i : String} {c : CandidateSolution}
    (h : db.getProgram i = some c) : c.id = i := by
  have := List.find?_some h
  simpa using this

theorem getProgram_mem {db : ProgramDatabase} {i : String} {c : CandidateSolution}
    (h : db.getProgram i = some c) : c ∈ db.programs :=
  List.mem_of_find?_eq_some h

theorem find?_id_of_nodup :
    ∀ (l : List CandidateSolution), (l.map (fun c => c.id)).Nodup →
      ∀ c ∈ l, l.find? (fun x => x.id = c.id) = some c
  | [], _, c, hc => absurd hc (List.not_mem_nil c)
  | x :: rest, hnd, c, hc => by
    rw [List.map_cons, List.nodup_cons] at hnd
    rcases List.mem_cons.mp hc with rfl | hc
    · exact List.find?_cons_of_pos rest (by simp)
    · have hne : x.id ≠ c.id := by
        intro he
        exact hnd.1 (he ▸ List.mem_map_of_mem (fun y => y.id) hc)
      rw [List.find?_cons_of_neg rest (by simpa using hne)]
      exact find?_id_of_nodup rest hnd.2 c hc

/-- `Map.get` on a duplicate-free map returns exactly the stored candidate
with the requested id. -/
theorem getProgram_of_mem {db : ProgramDatabase} (hnd : NodupIds db.programs)
    {c : CandidateSolution} (hc : c ∈ db.programs) : db.getProgram c.id = some c :=
  find?_id_of_nodup db.programs hnd c hc

theorem mapSet_of_fresh {l : List CandidateSolution} {c : CandidateSolution}
    (h : ∀ x ∈ l, x.id ≠ c.id) : mapSet l c = l ++ [c] := by
  unfold mapSet
  rw [if_neg]
  intro hany
  rcases List.any_eq_true.mp hany with ⟨x, hx, hxid⟩
  exact h x hx (by simpa using hxid)

/-- Replaying a duplicate-free program list through `Map.set` reproduces it. -/
theorem foldl_mapSet_of_nodup :
    ∀ (l acc : List CandidateSolution), NodupIds (acc ++ l) →
      l.foldl mapSet acc = acc ++ l
  | [], acc, _ => by simp
  | c :: rest, acc, h => by
    have h' : NodupIds ((acc ++ [c]) ++ rest) := by
      unfold NodupIds at h ⊢
      simpa using h
    have hfresh : ∀ x ∈ acc, x.id ≠ c.id := by
      intro x hx he
      unfold NodupIds at h
      rw [List.map_append, List.nodup_append] at h
      have hmem : c.id ∈ acc.map (fun y => y.id) := by
        rw [← he]
        exact List.mem_map_of_mem (fun y => y.id) hx
      exact h.2.2 hmem (by simp)
    rw [List.foldl_cons, mapSet_of_fresh hfresh,
      foldl_mapSet_of_nodup rest (acc ++ [c]) h', List.append_assoc]
    rfl

theorem find?_objSet_map (k : String) (v : MetaVal) :
    ∀ (m : List (String × MetaVal)), (∃ p ∈ m, p.1 = k) →
      ((m.map (fun p => if p.1 = k then (k, v) else p)).find?
        (fun p => p.1 = k)) = some (k, v)
  | [], h => by simp at h
  | p :: rest, h => by
    by_cases hp : p.1 = k
    · simp [List.find?, hp]
    · rw [List.map_cons, if_neg hp, List.find?_cons_of_neg _ (by simpa using hp)]
      refine find?_objSet_map k v rest ?_
      rcases h with ⟨q, hq, hqk⟩
      rcases List.mem_cons.mp hq with rfl | hq
      · exact absurd hqk hp
      · exact ⟨q, hq, hqk⟩

/-- Looking up the key just written by `objSet` yields the written value. -/
theorem find?_objSet_self (m : List (String × MetaVal)) (k : String) (v : MetaVal) :
    (objSet m k v).find? (fun p => p.1 = k) = some (k, v) := by
  unfold objSet
  by_cases h : m.any (fun p => p.1 = k)
  · rw [if_pos h]
    refine find?_objSet_map k v m ?_
    rcases List.any_eq_true.mp h with ⟨p, hp, hpk⟩
    exact ⟨p, hp, by simpa using hpk⟩
  · rw [if_neg h]
    rw [List.find?_append]
    have hnone : m.find? (fun p => decide (p.1 = k)) = none := by
      rw [List.find?_eq_none]
      intro x hx hxk
      exact h (List.any_eq_true.mpr ⟨x, hx, hxk⟩)
    rw [hnone, List.find?_cons_of_pos _ (by simp)]
    rfl

/-! ## The best-pointer invariant under `addProgram` and loading -/

theorem getBestProgram_cached {db : ProgramDatabase} {b : String}
    {c : CandidateSolution} (hb : db.bestProgramId = some b) (hbne : b ≠ "")
    (hg : db.getProgram b = some c) (hne : db.programs ≠ []) :
    db.getBestProgram = some c := by
  unfold getBestProgram
  rw [if_neg (by simpa using hne), hb]
  simp [strTruthy, hbne, hg]

theorem getBestProgram_none_cached {db : ProgramDatabase}
    (hb : db.bestProgramId = none) (hne : db.programs ≠ []) :
    db.getBestProgram = (sortedByFinalScoreDesc db.programs).head? := by
  unfold getBestProgram
  rw [if_neg (by simpa using hne), hb]

theorem getBestProgram_empty {db : ProgramDatabase} (h : db.programs = []) :
    db.getBestProgram = none := by
  unfold getBestProgram
  rw [if_pos (by simpa using h)]

theorem bestInv_empty : BestInv ProgramDatabase.empty :=
  ⟨fun _ => ⟨rfl, rfl⟩, fun h => absurd rfl h⟩

theorem addProgram_fst (db : ProgramDatabase) (solution : String)
    (fitness : Fitness) (iteration : ℕ) (parentId : Option String)
    (feedback generationPrompt feedbackPrompt : Option String)
    (id : String) (now : ℤ) :
    (db.addProgram solution fitness iteration parentId feedback
      generationPrompt feedbackPrompt id now).1 =
    { id := id, solution := solution, fitness := fitness,
      iteration := iteration, parent := parentId, timestamp := now,
      feedback := feedback, generationPrompt := generationPrompt,
      feedbackPrompt := feedbackPrompt } := rfl

theorem addProgram_snd_programs (db : ProgramDatabase) (solution : String)
    (fitness : Fitness) (iteration : ℕ) (parentId : Option String)
    (feedback generationPrompt feedbackPrompt : Option String)
    (id : String) (now : ℤ) (h : ∀ x ∈ db.programs, x.id ≠ id) :
    (db.addProgram solution fitness iteration parentId feedback
      generationPrompt feedbackPrompt id now).2.programs =
    db.programs ++ [(db.addProgram solution fitness iteration parentId feedback
      generationPrompt feedbackPrompt id now).1] := by
  unfold addProgram
  dsimp only
  split <;> exact mapSet_of_fresh h

theorem addProgram_snd_metadata (db : ProgramDatabase) (solution : String)
    (fitness : Fitness) (iteration : ℕ) (parentId : Option String)
    (feedback generationPrompt feedbackPrompt : Option String)
    (id : String) (now : ℤ) :
    (db.addProgram solution fitness iteration parentId feedback
      generationPrompt feedbackPrompt id now).2.metadata = db.metadata := by
  unfold addProgram
  dsimp only
  split <;> rfl

/-- One `addProgram` step with a fresh id preserves the best-pointer
invariant. -/
theorem bestInv_addProgram (db : ProgramDatabase) (solution : String)
    (fitness : Fitness) (iteration : ℕ) (parentId : Option String)
    (feedback generationPrompt feedbackPrompt : Option String)
    (id : String) (now : ℤ) (hinv : BestInv db) (hf : freshId db id) :
    BestInv (db.addProgram solution fitness iteration parentId feedback
      generationPrompt feedbackPrompt id now).2 := by
  obtain ⟨hidne, hfresh⟩ := hf
  have hprog := addProgram_snd_programs db solution fitness iteration parentId
    feedback generationPrompt feedbackPrompt id now hfresh
  have hcons : (db.addProgram solution fitness iteration parentId feedback
      generationPrompt feedbackPrompt id now).2.programs ≠ [] := by
    rw [hprog]
    simp
  have hcid : (db.addProgram solution fitness iteration parentId feedback
      generationPrompt feedbackPrompt id now).1.id = id := rfl
  have hcfit : (db.addProgram solution fitness iteration parentId feedback
      generationPrompt feedbackPrompt id now).1.fitness = fitness := rfl
  have hgetnew : (db.addProgram solution fitness iteration parentId feedback
      generationPrompt feedbackPrompt id now).2.getProgram id =
      some (db.addProgram solution fitness iteration parentId feedback
        generationPrompt feedbackPrompt id now).1 := by
    show List.find? _ _ = _
    rw [hprog, List.find?_append]
    have h1 : db.programs.find? (fun c => c.id = id) = none := by
      rw [List.find?_eq_none]
      intro x hx
      simpa using hfresh x hx
    rw [h1, List.find?_cons_of_pos _ (by simp [hcid])]
    rfl
  have hgetold : ∀ (i : String) (c : CandidateSolution), db.getProgram i = some c →
      (db.addProgram solution fitness iteration parentId feedback
        generationPrompt feedbackPrompt id now).2.getProgram i = some c := by
    intro i c hc
    show List.find? _ _ = _
    rw [hprog, List.find?_append,
      show db.programs.find? (fun x => x.id = i) = some c from hc]
    rfl
  constructor
  · intro h
    exact absurd h (by rw [hprog]; simp)
  intro _
  cases hp : db.programs with
  | nil =>
    -- first insertion: the best pointer was empty and is set to the new id
    have hbnone : db.bestProgramId = none := ((hinv.1) hp).1
    have hbest : (db.addProgram solution fitness iteration parentId feedback
        generationPrompt feedbackPrompt id now).2.bestProgramId = some id := by
      have hcheckn : updateBestCheck
          (mapSet db.programs
            (mkCandidate solution fitness iteration parentId feedback
              generationPrompt feedbackPrompt id now))
          db.bestProgramId fitness.finalScore = true := by
        unfold updateBestCheck
        rw [hbnone]
      unfold addProgram
      dsimp only
      rw [hcheckn]
      rfl
    refine ⟨id, _, hbest, hidne, hgetnew, ?_, ?_⟩
    · intro d hd
      rw [hprog, hp] at hd
      simp only [List.nil_append, List.mem_singleton] at hd
      rw [hd]
    · exact getBestProgram_cached hbest hidne hgetnew hcons
  | cons y rest =>
    have hne : db.programs ≠ [] := by rw [hp]; simp
    obtain ⟨b, c0, hb, hbne, hg, hmax, _⟩ := (hinv.2) hne
    have hg' := hgetold b c0 hg
    have hfreshc : ∀ x ∈ db.programs, x.id ≠
        (mkCandidate solution fitness iteration parentId feedback
          generationPrompt feedbackPrompt id now).id := hfresh
    have hfind1 : (mapSet db.programs
        (mkCandidate solution fitness iteration parentId feedback
          generationPrompt feedbackPrompt id now)).find?
        (fun c => c.id = b) = some c0 := by
      rw [mapSet_of_fresh hfreshc, List.find?_append,
        show db.programs.find? (fun x => x.id = b) = some c0 from hg]
      rfl
    have hcheck : updateBestCheck
        (mapSet db.programs
          (mkCandidate solution fitness iteration parentId feedback
            generationPrompt feedbackPrompt id now))
        db.bestProgramId fitness.finalScore =
        decide (jsOrZero c0.fitness.finalScore < fitness.finalScore) := by
      unfold updateBestCheck
      rw [hb]
      dsimp only
      rw [hfind1]
    by_cases hlt : jsOrZero c0.fitness.finalScore < fitness.finalScore
    · have hbest : (db.addProgram solution fitness iteration parentId feedback
          generationPrompt feedbackPrompt id now).2.bestProgramId = some id := by
        unfold addProgram
        dsimp only
        rw [hcheck]
        simp [hlt]
      rw [jsOrZero_eq] at hlt
      refine ⟨id, _, hbest, hidne, hgetnew, ?_, ?_⟩
      · intro d hd
        rw [hprog] at hd
        rcases List.mem_append.mp hd with hd | hd
        · rw [hcfit]
          exact le_of_lt (lt_of_le_of_lt (hmax d hd) hlt)
        · rw [List.mem_singleton.mp hd]
      · exact getBestProgram_cached hbest hidne hgetnew hcons
    · have hbest : (db.addProgram solution fitness iteration parentId feedback
          generationPrompt feedbackPrompt id now).2.bestProgramId = some b := by
        unfold addProgram
        dsimp only
        rw [hcheck]
        simp only [hlt, decide_eq_true_eq, if_neg, ite_false]
        exact hb
      rw [jsOrZero_eq] at hlt
      push_neg at hlt
      refine ⟨b, c0, hbest, hbne, hg', ?_, ?_⟩
      · intro d hd
        rw [hprog] at hd
        rcases List.mem_append.mp hd with hd | hd
        · exact hmax d hd
        · rw [List.mem_singleton.mp hd, hcfit]
          exact hlt
      · exact getBestProgram_cached hbest hbne hg' hcons

/-! ## The lineage walk -/

theorem getLineageFuel_none (db : ProgramDatabase) (fuel : ℕ) :
    getLineageFuel db fuel none = some [] := by
  cases fuel <;> rfl

/-- A lineage walk that finishes with the empty chain started at a falsy or
unresolvable id. -/
theorem getLineageFuel_nil_cases {db : ProgramDatabase} {n : ℕ} {p : String}
    (h : getLineageFuel db n (some p) = some []) :
    p = "" ∨ db.getProgram p = none := by
  cases n with
  | zero => simp [getLineageFuel] at h
  | succ m =>
    rw [getLineageFuel] at h
    by_cases hp : p = ""
    · exact Or.inl hp
    · rw [if_neg hp] at h
      cases hg : db.getProgram p with
      | none => exact Or.inr rfl
      | some c =>
        rw [hg] at h
        dsimp only at h
        cases hr : getLineageFuel db m c.parent with
        | none => rw [hr] at h; simp at h
        | some r => rw [hr] at h; simp at h

/-- A non-empty finished lineage walk ends at the candidate the queried id
resolves to. -/
theorem getLineageFuel_last {db : ProgramDatabase} {n : ℕ} {p : String}
    {rest : List CandidateSolution}
    (h : getLineageFuel db n (some p) = some rest) (hne : rest ≠ []) :
    ∃ d, db.getProgram p = some d ∧ rest.getLast? = some d := by
  cases n with
  | zero => simp [getLineageFuel] at h
  | succ m =>
    rw [getLineageFuel] at h
    by_cases hp : p = ""
    · rw [if_pos hp] at h
      injection h with h
      exact absurd h.symm hne
    · rw [if_neg hp] at h
      cases hg : db.getProgram p with
      | none =>
        rw [hg] at h
        dsimp only at h
        injection h with h
        exact absurd h.symm hne
      | some c =>
        rw [hg] at h
        dsimp only at h
        cases hr : getLineageFuel db m c.parent with
        | none => rw [hr] at h; simp at h
        | some r =>
          rw [hr] at h
          simp only [Option.map_some', Option.some.injEq] at h
          refine ⟨c, rfl, ?_⟩
          rw [← h]
          exact List.getLast?_concat r

/-- Any chain a finished lineage walk returns satisfies the chain
specification: all elements stored, linked child-after-parent oldest first,
stopping at a root or dangling parent, and ending at the queried candidate. -/
theorem getLineageFuel_shape (db : ProgramDatabase) :
    ∀ (fuel : ℕ) (oid : Option String) (l : List CandidateSolution),
      getLineageFuel db fuel oid = some l →
      StoredChain db l ∧ LinkedChain l ∧ HeadStops db l ∧
      (∀ cid, oid = some cid → EndsAt db cid l) := by
  intro fuel
  induction fuel with
  | zero =>
    intro oid l h
    cases oid with
    | none =>
      rw [getLineageFuel_none] at h
      injection h with h
      subst h
      refine ⟨fun c hc => absurd hc (List.not_mem_nil c), List.chain'_nil,
        fun c hc => by simp at hc, fun cid hcid => by simp at hcid⟩
    | some cid => simp [getLineageFuel] at h
  | succ m ih =>
    intro oid l h
    cases oid with
    | none =>
      rw [getLineageFuel_none] at h
      injection h with h
      subst h
      refine ⟨fun c hc => absurd hc (List.not_mem_nil c), List.chain'_nil,
        fun c hc => by simp at hc, fun cid hcid => by simp at hcid⟩
    | some cid =>
      rw [getLineageFuel] at h
      by_cases hcid : cid = ""
      · rw [if_pos hcid] at h
        injection h with h
        subst h
        refine ⟨fun c hc => absurd hc (List.not_mem_nil c), List.chain'_nil,
          fun c hc => by simp at hc, fun cid' hcid' => ?_⟩
        injection hcid' with hcid'
        subst hcid'
        unfold EndsAt
        rw [if_pos hcid]
      · rw [if_neg hcid] at h
        cases hg : db.getProgram cid with
        | none =>
          rw [hg] at h
          dsimp only at h
          injection h with h
          subst h
          refine ⟨fun c hc => absurd hc (List.not_mem_nil c), List.chain'_nil,
            fun c hc => by simp at hc, fun cid' hcid' => ?_⟩
          injection hcid' with hcid'
          subst hcid'
          unfold EndsAt
          rw [if_neg hcid]
          exact Or.inl ⟨rfl, hg⟩
        | some c =>
          rw [hg] at h
          dsimp only at h
          cases hr : getLineageFuel db m c.parent with
          | none => rw [hr] at h; simp at h
          | some rest =>
            rw [hr] at h
            simp only [Option.map_some', Option.some.injEq] at h
            subst h
            obtain ⟨hS, hL, hH, _⟩ := ih c.parent rest hr
            have hcidc : c.id = cid := getProgram_id hg
            refine ⟨?_, ?_, ?_, ?_⟩
            · intro x hx
              rcases List.mem_append.mp hx with hx | hx
              · exact hS x hx
              · rw [List.mem_singleton.mp hx, hcidc]
                exact hg
            · refine List.chain'_append.mpr ⟨hL, List.chain'_singleton c, ?_⟩
              intro x hx y hy
              rw [List.head?_cons, Option.mem_some_iff] at hy
              subst hy
              rw [Option.mem_def] at hx
              have hrestne : rest ≠ [] := by
                intro hnil
                rw [hnil] at hx
                simp at hx
              cases hcp : c.parent with
              | none =>
                rw [hcp, getLineageFuel_none] at hr
                injection hr with hr
                exact absurd hr.symm hrestne
              | some p =>
                rw [hcp] at hr
                obtain ⟨d, hd, hlast⟩ := getLineageFuel_last hr hrestne
                rw [hx] at hlast
                injection hlast with hlast
                rw [hlast, getProgram_id hd]
            · intro e he p hp
              cases hrest : rest with
              | nil =>
                rw [hrest] at he
                rw [List.nil_append, List.head?_cons] at he
                injection he with he
                subst he
                rw [hp, hrest] at hr
                exact getLineageFuel_nil_cases hr
              | cons r0 rs =>
                rw [hrest] at he
                rw [List.cons_append, List.head?_cons] at he
                injection he with he
                subst he
                refine hH r0 ?_ p hp
                rw [hrest, List.head?_cons]
            · intro cid' hcid'
              injection hcid' with hcid'
              subst hcid'
              unfold EndsAt
              rw [if_neg hcid]
              exact Or.inr ⟨c, hg, List.getLast?_concat rest⟩

/-- On a forest-shaped store the lineage walk finishes: whenever the queried
id resolves to a candidate of rank below `n`, fuel `n + 1` suffices. -/
theorem getLineageFuel_terminates (db : ProgramDatabase) (rk : String → ℕ)
    (hpr : ParentRanked db rk) :
    ∀ (n : ℕ) (oid : Option String),
      (∀ cid c, oid = some cid → db.getProgram cid = some c → rk cid < n) →
      ∃ l, getLineageFuel db (n + 1) oid = some l := by
  intro n
  induction n using Nat.strong_induction_on with
  | _ n ihn =>
    intro oid hbound
    cases oid with
    | none => exact ⟨[], getLineageFuel_none db (n + 1)⟩
    | some cid =>
      by_cases hcid : cid = ""
      · refine ⟨[], ?_⟩
        rw [getLineageFuel, if_pos hcid]
      · cases hg : db.getProgram cid with
        | none =>
          refine ⟨[], ?_⟩
          rw [getLineageFuel, if_neg hcid, hg]
        | some c =>
          have hrk : rk cid < n := hbound cid c rfl hg
          obtain ⟨m, rfl⟩ : ∃ m, n = m + 1 :=
            ⟨n - 1, by omega⟩
          have hsub : ∃ l, getLineageFuel db (m + 1) c.parent = some l := by
            refine ihn m (by omega) c.parent ?_
            intro p d hp hd
            have hcm : c ∈ db.programs := getProgram_mem hg
            have hdm : d ∈ db.programs := getProgram_mem hd
            have hdp : d.id = p := getProgram_id hd
            have := hpr c hcm d hdm (by rw [hdp]; exact hp)
            rw [hdp] at this
            have hcc : c.id = cid := getProgram_id hg
            rw [hcc] at this
            omega
          obtain ⟨r, hrl⟩ := hsub
          refine ⟨r ++ [c], ?_⟩
          rw [getLineageFuel, if_neg hcid, hg]
          dsimp only
          rw [hrl]
          rfl

/-- Every `addProgram`-reachable store satisfies the best-pointer invariant. -/
theorem bestInv_of_reachable {db : ProgramDatabase} (h : Reachable db) :
    BestInv db := by
  induction h with
  | empty => exact bestInv_empty
  | add db sol fit it par fb gp fp id now _ hf ih =>
    exact bestInv_addProgram db sol fit it par fb gp fp id now ih hf

/-- Reachable stores have pairwise distinct, non-empty ids. -/
theorem goodIds_of_reachable {db : ProgramDatabase} (h : Reachable db) :
    NodupIds db.programs ∧ ∀ c ∈ db.programs, c.id ≠ "" := by
  induction h with
  | empty => exact ⟨List.nodup_nil, fun c hc => absurd hc (List.not_mem_nil c)⟩
  | add db sol fit it par fb gp fp id now _ hf ih =>
    obtain ⟨hidne, hfresh⟩ := hf
    have hprog := addProgram_snd_programs db sol fit it par fb gp fp id now hfresh
    constructor
    · unfold NodupIds
      rw [hprog, List.map_append]
      rw [List.nodup_append]
      refine ⟨ih.1, List.nodup_singleton _, ?_⟩
      intro a ha hb
      simp only [List.map_cons, List.map_nil, List.mem_singleton] at hb
      rcases List.mem_map.mp ha with ⟨x, hx, hxa⟩
      exact hfresh x hx (by rw [hxa, hb]; rfl)
    · intro c hc
      rw [hprog] at hc
      rcases List.mem_append.mp hc with hc | hc
      · exact ih.2 c hc
      · rw [List.mem_singleton.mp hc]
        exact hidne

/-! ## Loading and the save / load round trip -/

theorem foldl_mapSet_nil {l : List CandidateSolution} (hnd : NodupIds l) :
    l.foldl mapSet [] = l := by
  have := foldl_mapSet_of_nodup l [] (by simpa [NodupIds] using hnd)
  simpa using this

theorem loadFromFile_programs (doc : SerializedDatabase)
    (hnd : NodupIds doc.programs) :
    (loadFromFile doc).programs = doc.programs := by
  have hfold := foldl_mapSet_nil hnd
  unfold loadFromFile
  dsimp only
  split
  · exact hfold
  · split <;> exact hfold

theorem loadFromFile_metadata (doc : SerializedDatabase) :
    (loadFromFile doc).metadata = doc.metadata.getD [] := by
  unfold loadFromFile
  dsimp only
  split
  · rfl
  · split <;> rfl

theorem loadFromFile_best_of_persisted {doc : SerializedDatabase} {b : String}
    (h : PersistedBest doc = some b) :
    (loadFromFile doc).bestProgramId = some b := by
  unfold loadFromFile
  dsimp only
  rw [show jsOrNullStr (((doc.metadata.getD []).find?
      (fun p => p.1 = "bestProgramId")).map (fun p => p.2)) = some b from h]

theorem loadFromFile_best_of_absent {doc : SerializedDatabase}
    (h : PersistedBest doc = none) :
    (loadFromFile doc).bestProgramId =
      match (ProgramDatabase.mk (doc.programs.foldl mapSet [])
          (doc.metadata.getD []) none).getBestProgram with
      | some c => some c.id
      | none => none := by
  unfold loadFromFile
  dsimp only
  rw [show jsOrNullStr (((doc.metadata.getD []).find?
      (fun p => p.1 = "bestProgramId")).map (fun p => p.2)) = none from h]
  dsimp only
  split <;> rfl

/-- Loading a well-formed document whose persisted best id is accurate (or
absent) restores the best-pointer invariant. -/
theorem bestInv_loadFromFile (doc : SerializedDatabase)
    (hnd : NodupIds doc.programs) (hids : ∀ c ∈ doc.programs, c.id ≠ "")
    (hgp : GoodPersistedBest doc) : BestInv (loadFromFile doc) := by
  have hprogs := loadFromFile_programs doc hnd
  have hnd' : NodupIds (loadFromFile doc).programs := by
    rw [hprogs]; exact hnd
  cases hpb : PersistedBest doc with
  | some b =>
    obtain ⟨c, hc, hcb, hmax⟩ := hgp b hpb
    have hbest := loadFromFile_best_of_persisted hpb
    have hne : doc.programs ≠ [] := by
      intro h
      rw [h] at hc
      exact absurd hc (List.not_mem_nil c)
    have hbne : b ≠ "" := by
      rw [← hcb]
      exact hids c hc
    have hget : (loadFromFile doc).getProgram b = some c := by
      have := getProgram_of_mem hnd' (show c ∈ (loadFromFile doc).programs by
        rw [hprogs]; exact hc)
      rw [hcb] at this
      exact this
    constructor
    · intro h
      rw [hprogs] at h
      exact absurd h hne
    · intro _
      refine ⟨b, c, hbest, hbne, hget, ?_, ?_⟩
      · intro d hd
        rw [hprogs] at hd
        exact hmax d hd
      · exact getBestProgram_cached hbest hbne hget
          (by rw [hprogs]; exact hne)
  | none =>
    have hbest := loadFromFile_best_of_absent hpb
    have hfold := foldl_mapSet_nil hnd
    cases hp : doc.programs with
    | nil =>
      have hempty : (loadFromFile doc).programs = [] := by rw [hprogs, hp]
      have hscan : (ProgramDatabase.mk (doc.programs.foldl mapSet [])
          (doc.metadata.getD []) none).getBestProgram = none :=
        getBestProgram_empty (by rw [hfold, hp])
      constructor
      · intro _
        refine ⟨?_, getBestProgram_empty hempty⟩
        rw [hbest, hscan]
      · intro h
        exact absurd hempty h
    | cons y rest =>
      have hne : doc.programs ≠ [] := by rw [hp]; simp
      obtain ⟨mx, hhead, hmem, hmax⟩ := head_sortedByFinalScoreDesc hne
      have hscan : (ProgramDatabase.mk (doc.programs.foldl mapSet [])
          (doc.metadata.getD []) none).getBestProgram = some mx := by
        rw [getBestProgram_none_cached rfl (by rw [hfold]; exact hne)]
        dsimp only
        rw [hfold]
        exact hhead
      have hbest' : (loadFromFile doc).bestProgramId = some mx.id := by
        rw [hbest, hscan]
      have hmxne : mx.id ≠ "" := hids mx hmem
      have hget : (loadFromFile doc).getProgram mx.id = some mx :=
        getProgram_of_mem hnd' (by rw [hprogs]; exact hmem)
      constructor
      · intro h
        rw [hprogs] at h
        exact absurd h hne
      · intro _
        refine ⟨mx.id, mx, hbest', hmxne, hget, ?_, ?_⟩
        · intro d hd
          rw [hprogs] at hd
          exact hmax d hd
        · exact getBestProgram_cached hbest' hmxne hget
            (by rw [hprogs]; exact hne)

theorem getBestProgram_congr {d1 d2 : ProgramDatabase}
    (hp : d1.programs = d2.programs) (hb : d1.bestProgramId = d2.bestProgramId) :
    d1.getBestProgram = d2.getBestProgram := by
  cases d1
  cases d2
  dsimp at hp hb
  subst hp
  subst hb
  rfl

theorem persistedBest_toJSON (db : ProgramDatabase) (now : ℤ) :
    PersistedBest (db.toJSON now) =
      match db.bestProgramId with
      | some b => if b = "" then none else some b
      | none => none := by
  unfold PersistedBest toJSON
  dsimp only
  rw [Option.getD_some, find?_objSet_self]
  cases db.bestProgramId <;> rfl

end ProgramDatabase

/-! ## Heap lemmas for the fitness-copy analysis -/

namespace FitnessHeap

/-- Mutating one object leaves every other object unchanged. -/
theorem readObj_mutateObj_ne (h : Heap) (r s : ℕ) (k : String) (v : ℚ)
    (hne : s ≠ r) : readObj (mutateObj h r k v) s = readObj h s := by
  unfold readObj mutateObj
  dsimp only
  rw [List.getD_eq_getElem?_getD, List.getD_eq_getElem?_getD,
    List.getElem?_set_ne (fun he => hne he.symm)]

end FitnessHeap

/-! ## The claims -/

/-- C1 (amended): for every source text that binds a callable to
`functionName` and every input, if the function the worker actually
executes — the raw bound function when `trackDetailedStats` is off or the
instrumented build throws, the instrumented function otherwise — completes
on that input within `timeoutMs` (in `d` ms, `0 ≤ d` by clock
monotonicity), then `safeEval` resolves with that function's value and the
reported `executionTime` (`= d`) is `≥ 0`; and on the non-instrumented
paths (`trackDetailedStats` off, or the instrumented build throwing) the
executed function IS the raw bound function, so there the result equals the
value of direct invocation. As the claim stated it — result equal to direct
invocation for every source and input — it is false under the default
`trackDetailedStats: true`: the regex rewrite can match inside a string
literal, still compile, and the worker then executes a function whose value
differs from the bound function's (see the counterexample). -/
theorem claim_C1 :
    (∀ (den : Sandbox.SourceDenotation) (g : Sandbox.JsFun)
       (input v : Sandbox.JsValue) (d timeoutMs : ℚ)
       (trackDetailedStats cleanupFiles : Bool),
      Sandbox.workerSelectFn trackDetailedStats den = Except.ok g →
      g input = Sandbox.CallBehavior.completes v d →
      0 ≤ d → d < timeoutMs →
      (Sandbox.safeEval ⟨true, true, den, trackDetailedStats, none⟩ input
        timeoutMs cleanupFiles).outcome =
        Sandbox.SettleOutcome.resolved v d ∧ 0 ≤ d) ∧
    (∀ (den : Sandbox.SourceDenotation),
      Sandbox.workerSelectFn false den = den.raw ∧
      ∀ e, den.instrumented = Except.error e →
        Sandbox.workerSelectFn true den = den.raw) := by
  constructor
  · intro den g input v d timeoutMs trackDetailedStats cleanupFiles hsel
      hcall hclock hfast
    refine ⟨?_, hclock⟩
    unfold Sandbox.safeEval Sandbox.workerEvent
    rw [if_neg (show ¬(!true) = true by decide),
      if_neg (show ¬(!true) = true by decide)]
    dsimp only
    rw [hsel]
    dsimp only
    rw [hcall]
    dsimp only
    rw [if_pos hfast]
  · intro den
    refine ⟨rfl, fun e he => ?_⟩
    unfold Sandbox.workerSelectFn
    rw [if_pos rfl, he]

/-- C1 witness: on a candidate whose instrumented build throws (the usual
case), the worker falls back to the raw source, and the identity-like bound
function completing in 1 ms on input 3 under a 200 ms timeout resolves with
the direct invocation's value. -/
theorem claim_C1_witness :
    Sandbox.workerSelectFn true Examples.denId = Examples.denId.raw ∧
    (Sandbox.safeEval Examples.envOk (Sandbox.JsValue.num 3) 200 true).outcome =
      Sandbox.SettleOutcome.resolved (Sandbox.JsValue.num 3) 1 ∧ (0 : ℚ) ≤ 1 :=
  ⟨(claim_C1.2 Examples.denId).2 "SyntaxError: Unexpected end of input" rfl,
   claim_C1.1 Examples.denId (fun v => Sandbox.CallBehavior.completes v 1)
    (Sandbox.JsValue.num 3) (Sandbox.JsValue.num 3) 1 200 true true rfl rfl
    (by decide) (by decide)⟩

/-- C1 counterexample: for `function f(x) { return "for(a;b;c)".length; }`
direct invocation of the bound function terminates in 1 ms without
throwing and returns 10, but the instrumentation regex of part_011 line 164
matches `for(a;b;c)` inside the string literal and inserts
` { loopIterations++; ` there, the rewritten source still compiles, and the
worker — under the default `trackDetailedStats: true` — executes that
function: `safeEval` resolves with 31, the lengthened literal's length, not
with the direct invocation's value 10. -/
theorem claim_C1_counterexample :
    Examples.denStrLit.raw = Except.ok Examples.rawStrLitFn ∧
    Examples.rawStrLitFn (Sandbox.JsValue.num 0) =
      Sandbox.CallBehavior.completes (Sandbox.JsValue.num 10) 1 ∧
    (1 : ℚ) < 200 ∧
    (Sandbox.safeEval Examples.envStrLit (Sandbox.JsValue.num 0) 200
      true).outcome =
      Sandbox.SettleOutcome.resolved (Sandbox.JsValue.num 31) 1 ∧
    Sandbox.JsValue.num 31 ≠ Sandbox.JsValue.num 10 :=
  ⟨rfl, by decide, by decide, by decide, by decide⟩

/-- C2 (amended): when the temporary script is written and the worker
starts, a call whose worker produces no event before the timer fires
rejects with the timeout signal, terminates the worker, and returns no
partial result; and — provided `cleanupFiles` is enabled (the default) —
the temporary worker script no longer exists after any settled exit path.
As the claim stated it, unconditional deletion on every exit path of every
call is false: the `cleanupFiles:false` option skips deletion, the older
`src/safeEval.ts` variant never deletes the file, and a `Worker`
constructor throw after the write also leaks it (see the counterexample). -/
theorem claim_C2 (env : Sandbox.EvalEnv) (input : Sandbox.JsValue)
    (timeoutMs : ℚ) (hw : env.writeOk = true) (hs : env.workerStartOk = true) :
    (Sandbox.timesOut env input timeoutMs →
      ∀ cleanupFiles, Sandbox.safeEval env input timeoutMs cleanupFiles =
        { outcome := Sandbox.SettleOutcome.rejectedTimeout,
          tempFileExists := !cleanupFiles, workerTerminated := true }) ∧
    (Sandbox.safeEval env input timeoutMs true).tempFileExists = false := by
  constructor
  · intro ht cf
    unfold Sandbox.timesOut at ht
    unfold Sandbox.safeEval
    rw [hw, hs, if_neg (by decide), if_neg (by decide)]
    cases hev : Sandbox.workerEvent env input with
    | hangs => rfl
    | msg m t =>
      rw [hev] at ht
      dsimp only at ht
      dsimp only
      rw [if_neg (not_lt.mpr ht)]
    | crashed c t =>
      rw [hev] at ht
      dsimp only at ht
      dsimp only
      rw [if_neg (not_lt.mpr ht)]
  · unfold Sandbox.safeEval
    rw [hw, hs, if_neg (by decide), if_neg (by decide)]
    cases hev : Sandbox.workerEvent env input with
    | hangs => rfl
    | msg m t =>
      dsimp only
      by_cases hlt : t < timeoutMs
      · rw [if_pos hlt]
        cases m <;> rfl
      · rw [if_neg hlt]
        rfl
    | crashed c t =>
      dsimp only
      by_cases hlt : t < timeoutMs
      · rw [if_pos hlt]
        by_cases hc : c ≠ 0
        · rw [if_pos hc]
          rfl
        · rw [if_neg hc]
          rfl
      · rw [if_neg hlt]
        rfl

/-- C2 witness: a candidate that never completes under a 200 ms timeout
rejects with the timeout signal, the worker is terminated, and the
temporary script is gone. -/
theorem claim_C2_witness :
    Sandbox.safeEval Examples.envHang (Sandbox.JsValue.num 0) 200 true =
      { outcome := Sandbox.SettleOutcome.rejectedTimeout,
        tempFileExists := false, workerTerminated := true } ∧
    (Sandbox.safeEval Examples.envHang (Sandbox.JsValue.num 0) 200 true).tempFileExists
      = false := by
  have h := claim_C2 Examples.envHang (Sandbox.JsValue.num 0) 200 rfl rfl
  exact ⟨h.1 trivial true, h.2⟩

/-- C2 counterexample: calls that settle while their temporary worker script
still exists — a successful `safeEval` call with `cleanupFiles:false`, any
successful call of the older `src/safeEval.ts` variant (which never
unlinks), and a call where the `Worker` constructor throws after the script
was written. -/
theorem claim_C2_counterexample :
    (Sandbox.safeEval Examples.envOk (Sandbox.JsValue.num 0) 200 false).outcome =
      Sandbox.SettleOutcome.resolved (Sandbox.JsValue.num 0) 1 ∧
    (Sandbox.safeEval Examples.envOk (Sandbox.JsValue.num 0) 200 false).tempFileExists
      = true ∧
    (Sandbox.safeEvalV1 Examples.envOk (Sandbox.JsValue.num 0) 200).outcome =
      Sandbox.SettleOutcome.resolved (Sandbox.JsValue.num 0) 1 ∧
    (Sandbox.safeEvalV1 Examples.envOk (Sandbox.JsValue.num 0) 200).tempFileExists
      = true ∧
    (Sandbox.safeEval Examples.envCtorFail (Sandbox.JsValue.num 0) 200 true).tempFileExists
      = true := by
  decide

/-- C3 (amended): provided the target file exists at the time of the call
and the runner's cached original (when one was captured by an earlier call)
matches that content, `evaluate` leaves the target file's content equal to
its pre-call content on every outcome — pass, fail, spawn failure, or an
exception inside the procedure. As the claim stated it ("for every
BenchmarkRunner instance"), it is false when the target file does not exist
before the call: nothing is captured, so nothing is restored, and the
candidate text is left on disk (see the counterexample). -/
theorem claim_C3 (rs : Benchmark.RunnerState) (fileContent solution : String)
    (outcome : Benchmark.TestOutcome)
    (hcache : rs.originalContent = none ∨ rs.originalContent = some fileContent) :
    (Benchmark.evaluate rs (some fileContent) solution outcome).2.2 =
      some fileContent := by
  unfold Benchmark.evaluate
  dsimp only
  rcases hcache with h | h
  · rw [if_pos h]
  · by_cases hn : rs.originalContent = none
    · rw [h] at hn
      exact absurd hn (by simp)
    · rw [if_neg hn, h]

/-- C3 witness: a fresh runner on an existing target file restores its
content even when a step throws. -/
theorem claim_C3_witness :
    (Benchmark.evaluate ⟨none⟩ (some "orig") "cand"
      Benchmark.TestOutcome.stepThrows).2.2 = some "orig" :=
  claim_C3 ⟨none⟩ "orig" "cand" Benchmark.TestOutcome.stepThrows (Or.inl rfl)

/-- C3 counterexample: when the target file does not exist before the call
(pre-call state `none`), `evaluate` leaves the candidate text on disk, so
the post-call state differs from the pre-call state. -/
theorem claim_C3_counterexample :
    (Benchmark.evaluate ⟨none⟩ none "candidate"
      (Benchmark.TestOutcome.exitNonZero 0)).2.2 = some "candidate" ∧
    (Benchmark.evaluate ⟨none⟩ none "candidate"
      (Benchmark.TestOutcome.exitNonZero 0)).2.2 ≠ none := by
  constructor
  · rfl
  · intro h
    exact Option.noConfusion h

/-- C6: `BenchmarkRunner.evaluate` never propagates a failure — in the
model it is a total function into fitness scores — and both when the test
subprocess cannot be spawned and when a step of the procedure throws it
returns the all-zero fitness (qualityScore = efficiencyScore =
finalScore = 0). A failed (non-zero exit) run also scores all-zero. -/
theorem claim_C6 (rs : Benchmark.RunnerState) (file : Option String)
    (solution : String) :
    (Benchmark.evaluate rs file solution Benchmark.TestOutcome.spawnError).1 =
      { qualityScore := 0, efficiencyScore := 0, finalScore := 0 } ∧
    (Benchmark.evaluate rs file solution Benchmark.TestOutcome.stepThrows).1 =
      { qualityScore := 0, efficiencyScore := 0, finalScore := 0 } ∧
    (∀ d, (Benchmark.evaluate rs file solution
      (Benchmark.TestOutcome.exitNonZero d)).1 =
      { qualityScore := 0, efficiencyScore := 0, finalScore := 0 }) :=
  ⟨rfl, rfl, fun _ => rfl⟩

/-- C4 (amended): in every store state reachable by `addProgram` calls with
fresh generated ids, and in every store loaded from a well-formed document
whose persisted best id is absent or accurate, the cached `bestProgramId`
(when the store is non-empty) names a stored candidate of maximal
`finalScore` and `getBestProgram` returns that candidate; on the empty
store both are absent. As the claim stated it — for `loadFromFile` of any
document — it is false: a persisted best id that names a stored but
non-maximal candidate is adopted without the full-scan re-derivation the
spec requires (see the counterexample). -/
theorem claim_C4 :
    (∀ db : ProgramDatabase, Reachable db → BestInv db) ∧
    (∀ doc : SerializedDatabase, NodupIds doc.programs →
      (∀ c ∈ doc.programs, c.id ≠ "") → GoodPersistedBest doc →
      BestInv (ProgramDatabase.loadFromFile doc)) :=
  ⟨fun _ h => ProgramDatabase.bestInv_of_reachable h,
   fun doc hnd hids hgp => ProgramDatabase.bestInv_loadFromFile doc hnd hids hgp⟩

/-- C4 witness: the invariant at the spec's 0.5 / 0.9 store and at its
save-then-load image. -/
theorem claim_C4_witness :
    BestInv Examples.dbBest ∧
    BestInv (ProgramDatabase.loadFromFile (Examples.dbBest.toJSON 5)) := by
  have hr : Reachable Examples.dbBest :=
    Reachable.add _ _ _ _ _ _ _ _ _ _
      (Reachable.add _ _ _ _ _ _ _ _ _ _ Reachable.empty (by decide))
      (by decide)
  refine ⟨claim_C4.1 Examples.dbBest hr,
    claim_C4.2 (Examples.dbBest.toJSON 5) (by decide) (by decide) ?_⟩
  intro b hb
  rw [show PersistedBest (Examples.dbBest.toJSON 5) =
    some "b1" from by decide] at hb
  injection hb with hb
  subst hb
  decide

/-- C4 counterexample: loading a document that stores "high" (final score
2) and "low" (final score 1) but persists "low" as best id leaves the stale
pointer in place — the cache names "low" and `getBestProgram` returns
"low", whose final score is not maximal. -/
theorem claim_C4_counterexample :
    (ProgramDatabase.loadFromFile Examples.staleDoc).bestProgramId =
      some "low" ∧
    (ProgramDatabase.loadFromFile Examples.staleDoc).getBestProgram =
      some Examples.cLow ∧
    Examples.cHigh ∈ (ProgramDatabase.loadFromFile Examples.staleDoc).programs ∧
    Examples.cLow.fitness.finalScore < Examples.cHigh.fitness.finalScore := by
  decide

/-- C5 (amended): for every reachable store, saving (`toJSON`) and loading
(`loadFromFile`) yields a store whose candidate list — hence every
candidate's id, solution, fitness, iteration, parent, feedback and
ISO-8601 instant — is identical, whose best id is identical (re-derived by
full scan only when the persisted value is absent, which for a saved
reachable store happens exactly when the store is empty), and whose lookup
and best-program behaviour is identical. The loaded store is, however, not
fully behaviorally identical as the claim stated: its metadata bag gains a
`bestProgramId` entry observable through `getMetadata` (see the
counterexample), and a stale persisted best id would not be re-derived. -/
theorem claim_C5 (db : ProgramDatabase) (now : ℤ) (h : Reachable db) :
    (ProgramDatabase.loadFromFile (db.toJSON now)).programs = db.programs ∧
    (ProgramDatabase.loadFromFile (db.toJSON now)).bestProgramId =
      db.bestProgramId ∧
    (ProgramDatabase.loadFromFile (db.toJSON now)).getBestProgram =
      db.getBestProgram ∧
    (∀ i, (ProgramDatabase.loadFromFile (db.toJSON now)).getProgram i =
      db.getProgram i) ∧
    (ProgramDatabase.loadFromFile (db.toJSON now)).getMetadata "bestProgramId" =
      some (match db.bestProgramId with
            | some b => MetaVal.str b
            | none => MetaVal.null) := by
  obtain ⟨hnd, hids⟩ := ProgramDatabase.goodIds_of_reachable h
  have hinv := ProgramDatabase.bestInv_of_reachable h
  have hndd : NodupIds (db.toJSON now).programs := hnd
  have hprogs := ProgramDatabase.loadFromFile_programs (db.toJSON now) hndd
  have hbest : (ProgramDatabase.loadFromFile (db.toJSON now)).bestProgramId =
      db.bestProgramId := by
    cases hp : db.programs with
    | nil =>
      have hbn : db.bestProgramId = none := (hinv.1 hp).1
      have hpb : PersistedBest (db.toJSON now) = none := by
        rw [ProgramDatabase.persistedBest_toJSON, hbn]
      rw [ProgramDatabase.loadFromFile_best_of_absent hpb, hbn,
        ProgramDatabase.getBestProgram_empty
          (by rw [ProgramDatabase.foldl_mapSet_nil hndd]; exact hp)]
    | cons y rest =>
      have hne : db.programs ≠ [] := by rw [hp]; simp
      obtain ⟨b, c, hb, hbne, _, _, _⟩ := hinv.2 hne
      have hpb : PersistedBest (db.toJSON now) = some b := by
        rw [ProgramDatabase.persistedBest_toJSON, hb]
        dsimp only
        rw [if_neg hbne]
      rw [ProgramDatabase.loadFromFile_best_of_persisted hpb, hb]
  refine ⟨hprogs, hbest, ?_, ?_, ?_⟩
  · exact ProgramDatabase.getBestProgram_congr hprogs hbest
  · intro i
    show (ProgramDatabase.loadFromFile (db.toJSON now)).programs.find? _ = _
    rw [hprogs]
    rfl
  · unfold ProgramDatabase.getMetadata
    rw [ProgramDatabase.loadFromFile_metadata]
    rw [show (db.toJSON now).metadata = some (objSet db.metadata "bestProgramId"
        (match db.bestProgramId with
         | some b => MetaVal.str b
         | none => MetaVal.null)) from rfl]
    rw [Option.getD_some, ProgramDatabase.find?_objSet_self]
    rfl

/-- C5 witness: the round trip at a one-candidate store. -/
theorem claim_C5_witness :
    (ProgramDatabase.loadFromFile (Examples.dbOne.toJSON 7)).programs =
      Examples.dbOne.programs ∧
    (ProgramDatabase.loadFromFile (Examples.dbOne.toJSON 7)).bestProgramId =
      Examples.dbOne.bestProgramId ∧
    (ProgramDatabase.loadFromFile (Examples.dbOne.toJSON 7)).getBestProgram =
      Examples.dbOne.getBestProgram := by
  have h := claim_C5 Examples.dbOne 7
    (Reachable.add _ _ _ _ _ _ _ _ _ _ Reachable.empty (by decide))
  exact ⟨h.1, h.2.1, h.2.2.1⟩

/-- C5 counterexample: the stores before and after a save-then-load round
trip are not behaviorally identical — the original one-candidate store has
no `bestProgramId` metadata entry, while the loaded store reports one
through `getMetadata`. -/
theorem claim_C5_counterexample :
    Examples.dbOne.getMetadata "bestProgramId" = none ∧
    (ProgramDatabase.loadFromFile (Examples.dbOne.toJSON 1)).getMetadata
      "bestProgramId" = some (MetaVal.str "a") := by
  decide

/-- C7 (amended): for every store, every `topN ≥ 1` and every value
`randomIndex` that `Math.floor(Math.random() * length)` can take,
`sampleProgram` returns only candidates with positive `finalScore` drawn
from the top `min topN (positive count)` positive-scoring candidates ranked
descending by `finalScore`; it returns a candidate whenever one with
positive score exists, and returns nothing when none has positive score.
As the claim stated it — for every `topN` — it is false at `topN = 0`: the
slice is empty and the code returns `undefined` although positive-scoring
candidates exist (see the counterexample). -/
theorem claim_C7 (db : ProgramDatabase) (topN randomIndex : ℕ)
    (htop : 1 ≤ topN)
    (hrand : randOk (db.topCandidates topN).length randomIndex) :
    (∀ c, db.sampleProgram topN randomIndex = some c →
      c ∈ db.programs ∧ 0 < c.fitness.finalScore ∧
      c ∈ db.topCandidates topN) ∧
    ((∃ c ∈ db.programs, 0 < c.fitness.finalScore) →
      ∃ c, db.sampleProgram topN randomIndex = some c) ∧
    ((∀ c ∈ db.programs, c.fitness.finalScore ≤ 0) →
      db.sampleProgram topN randomIndex = none) := by
  have htopmem : ∀ c ∈ db.topCandidates topN,
      c ∈ db.programs ∧ 0 < c.fitness.finalScore := by
    intro c hc
    unfold ProgramDatabase.topCandidates at hc
    have hsorted := List.take_subset _ _ hc
    have hfilter := ProgramDatabase.mem_sortedByFinalScoreDesc.mp hsorted
    have := List.mem_filter.mp hfilter
    exact ⟨this.1, by simpa using this.2⟩
  refine ⟨?_, ?_, ?_⟩
  · intro c hc
    unfold ProgramDatabase.sampleProgram at hc
    by_cases he : db.programs.isEmpty
    · rw [if_pos he] at hc
      exact absurd hc (by simp)
    · rw [if_neg he] at hc
      have hmem := List.get?_mem hc
      exact ⟨(htopmem c hmem).1, (htopmem c hmem).2, hmem⟩
  · intro ⟨c0, hc0, hpos⟩
    have hne : db.programs ≠ [] := by
      intro h
      rw [h] at hc0
      exact absurd hc0 (List.not_mem_nil c0)
    have hlen : 1 ≤ (db.topCandidates topN).length := by
      unfold ProgramDatabase.topCandidates
      rw [List.length_take, ProgramDatabase.length_sortedByFinalScoreDesc]
      have hfne : 1 ≤ (db.programs.filter
          (fun c => decide (0 < c.fitness.finalScore))).length := by
        have : c0 ∈ db.programs.filter
            (fun c => decide (0 < c.fitness.finalScore)) :=
          List.mem_filter.mpr ⟨hc0, by simpa using hpos⟩
        exact List.length_pos.mpr (fun h => by
          rw [h] at this
          exact absurd this (List.not_mem_nil c0))
      omega
    have hri : randomIndex < (db.topCandidates topN).length := by
      unfold randOk at hrand
      rw [if_neg (by omega)] at hrand
      exact hrand
    have hsome : (db.topCandidates topN).get? randomIndex ≠ none := by
      rw [ne_eq, List.get?_eq_none]
      omega
    unfold ProgramDatabase.sampleProgram
    rw [if_neg (by simpa using hne)]
    cases hg : (db.topCandidates topN).get? randomIndex with
    | none => exact absurd hg hsome
    | some c => exact ⟨c, rfl⟩
  · intro hall
    unfold ProgramDatabase.sampleProgram
    by_cases he : db.programs.isEmpty
    · rw [if_pos he]
    · rw [if_neg he]
      have hfe : db.programs.filter
          (fun c => decide (0 < c.fitness.finalScore)) = [] := by
        rw [List.filter_eq_nil_iff]
        intro a ha
        simpa using hall a ha
      unfold ProgramDatabase.topCandidates
      rw [hfe]
      simp [ProgramDatabase.sortedByFinalScoreDesc]

/-- C7 witness: at the 0.5 / 0.9 store with `topN = 3` the sample is a
stored candidate with positive final score. -/
theorem claim_C7_witness :
    ∃ c, Examples.dbBest.sampleProgram 3 0 = some c ∧
      c ∈ Examples.dbBest.programs ∧ 0 < c.fitness.finalScore := by
  have h := claim_C7 Examples.dbBest 3 0 (by decide) (by decide)
  obtain ⟨c, hc⟩ := h.2.1 (by decide)
  obtain ⟨hm, hp, _⟩ := h.1 c hc
  exact ⟨c, hc, hm, hp⟩

/-- C7 counterexample: with `topN = 0` the store holds a candidate with
positive final score, yet `sampleProgram` returns nothing — the claim's
"whenever a positive candidate exists it returns some candidate from the
top min(topN, count)" fails for `topN = 0`. -/
theorem claim_C7_counterexample :
    (∃ c ∈ Examples.dbOne.programs, 0 < c.fitness.finalScore) ∧
    Examples.dbOne.sampleProgram 0 0 = none := by
  decide

/-- C8 (amended): `addProgram` protects the stored snapshot against
caller-side mutation of the scalar scores (the spread copies them) and of
the nested `performanceMetrics` object (deep-copied into a fresh object, so
mutating the caller's object leaves the stored view unchanged), and with a
fresh generated id it appends — never overwrites or removes — stored
candidates. As the claim stated it — protection against mutation of any
nested object-valued metric — it is false: metric objects stored under
other keys are kept by reference, and mutating them changes the stored
candidate's fitness (see the counterexample). -/
theorem claim_C8 :
    (∀ (h : FitnessHeap.Heap) (f : FitnessHeap.FitnessVal) (r : ℕ)
       (k : String) (v : ℚ),
      f.performanceMetrics = some r → r < h.objs.length →
      (∀ kk s, (kk, s) ∈ f.extraObjs → s ≠ r) →
      FitnessHeap.viewFitness
        (FitnessHeap.mutateObj (FitnessHeap.fitnessCopy h f).2 r k v)
        (FitnessHeap.fitnessCopy h f).1 =
      FitnessHeap.viewFitness (FitnessHeap.fitnessCopy h f).2
        (FitnessHeap.fitnessCopy h f).1) ∧
    (∀ (db : ProgramDatabase) (solution : String) (fitness : Fitness)
       (iteration : ℕ) (parentId feedback generationPrompt feedbackPrompt :
         Option String) (id : String) (now : ℤ), freshId db id →
      (db.addProgram solution fitness iteration parentId feedback
        generationPrompt feedbackPrompt id now).2.programs =
      db.programs ++ [(db.addProgram solution fitness iteration parentId
        feedback generationPrompt feedbackPrompt id now).1]) := by
  constructor
  · intro h f r k v hpm hval hextra
    unfold FitnessHeap.fitnessCopy
    rw [hpm]
    dsimp only
    unfold FitnessHeap.viewFitness
    dsimp only
    simp only [FitnessHeap.FitnessView.mk.injEq]
    refine ⟨trivial, trivial, trivial, ?_, ?_⟩
    · refine List.map_congr_left ?_
      intro p hp
      rw [FitnessHeap.readObj_mutateObj_ne _ _ _ _ _ (hextra p.1 p.2 hp)]
    · simp only [Option.map_some']
      rw [FitnessHeap.readObj_mutateObj_ne _ _ _ _ _
        (show h.objs.length ≠ r by omega)]
  · intro db solution fitness iteration parentId feedback generationPrompt
      feedbackPrompt id now hf
    exact ProgramDatabase.addProgram_snd_programs db solution fitness
      iteration parentId feedback generationPrompt feedbackPrompt id now hf.2

/-- C8 witness: a caller fitness whose `performanceMetrics` references heap
object 0 — mutating the caller's object after the copy leaves the stored
view unchanged; and a fresh insertion appends to the store. -/
theorem claim_C8_witness :
    FitnessHeap.viewFitness
      (FitnessHeap.mutateObj
        (FitnessHeap.fitnessCopy Examples.heapPm Examples.fitPm).2 0 "t" 9)
      (FitnessHeap.fitnessCopy Examples.heapPm Examples.fitPm).1 =
    FitnessHeap.viewFitness (FitnessHeap.fitnessCopy Examples.heapPm Examples.fitPm).2
      (FitnessHeap.fitnessCopy Examples.heapPm Examples.fitPm).1 ∧
    (Examples.dbOne.addProgram "g" (Examples.fit 2 2 2) 1 none none none none
      "b9" 9).2.programs = Examples.dbOne.programs ++
      [(Examples.dbOne.addProgram "g" (Examples.fit 2 2 2) 1 none none none
        none "b9" 9).1] :=
  ⟨claim_C8.1 Examples.heapPm Examples.fitPm 0 "t" 9 rfl (by decide)
    (by intro kk s hs; exact absurd hs (List.not_mem_nil (kk, s))),
   claim_C8.2 Examples.dbOne "g" (Examples.fit 2 2 2) 1 none none none none
    "b9" 9 (by decide)⟩

/-- C8 counterexample: the stored fitness copy shares every nested metric
object other than `performanceMetrics` with the caller: the copy of a
fitness holding metric object 0 under key "m" is reference-identical
(identical value and unchanged heap), and the caller's later mutation of
that object changes the stored candidate's observed fitness. -/
theorem claim_C8_counterexample :
    FitnessHeap.fitnessCopy Examples.heap0 Examples.fitShared =
      (Examples.fitShared, Examples.heap0) ∧
    FitnessHeap.viewFitness (FitnessHeap.mutateObj Examples.heap0 0 "v" 42)
      Examples.fitShared ≠
    FitnessHeap.viewFitness Examples.heap0 Examples.fitShared := by
  decide

/-- C9: on every forest-shaped store (every resolvable parent reference
points to a strictly lower-ranked candidate — true of any store built by
`addProgram`, ranking by insertion position), `getLineage` terminates for
every id and returns the parent chain ordered oldest-first: every element
stored, consecutive elements linked child-after-parent, the walk stopping
gracefully at a parentless candidate or at a parent id absent from the
store, and the chain ending at the queried candidate (empty when the id is
absent). -/
theorem claim_C9 (db : ProgramDatabase) (rk : String → ℕ)
    (hpr : ParentRanked db rk) (id : String) :
    ∃ fuel l, ProgramDatabase.getLineageFuel db fuel (some id) = some l ∧
      LineageSpec db id l := by
  obtain ⟨l, hl⟩ := ProgramDatabase.getLineageFuel_terminates db rk hpr
    (rk id + 1) (some id) (fun cid c hcid _ => by
      injection hcid with hcid
      subst hcid
      omega)
  obtain ⟨hS, hL, hH, hE⟩ :=
    ProgramDatabase.getLineageFuel_shape db (rk id + 2) (some id) l hl
  exact ⟨rk id + 2, l, hl, hS, hL, hH, hE id rfl⟩

/-- C9 witness: on the chain A ← B ← C plus parentless X, ranked by
insertion order, `getLineage "c"` is `[A, B, C]` and `getLineage "x"` is
`[X]`. -/
theorem claim_C9_witness :
    ParentRanked Examples.chainDb Examples.chainRk ∧
    (∃ fuel l, ProgramDatabase.getLineageFuel Examples.chainDb fuel
      (some "c") = some l ∧ LineageSpec Examples.chainDb "c" l) ∧
    (ProgramDatabase.getLineageFuel Examples.chainDb 5 (some "c")).map
      (fun l => l.map (fun c => c.id)) = some ["a", "b", "c"] ∧
    (ProgramDatabase.getLineageFuel Examples.chainDb 5 (some "x")).map
      (fun l => l.map (fun c => c.id)) = some ["x"] :=
  ⟨by decide,
   claim_C9 Examples.chainDb Examples.chainRk (by decide) "c",
   by decide, by decide⟩

/-- C10: `getAllPrograms` and `filterPrograms` return freshly allocated
arrays: the returned reference is new (beyond every existing array), holds
exactly the store's contents (respectively the filtered contents), and the
call leaves every pre-existing array untouched. A caller-side mutation of
the returned array takes effect on that array only; the store value — and
with it `count` and the contents returned by any later call, at any world,
including the mutated one because the statement quantifies over all worlds
— is unchanged. -/
theorem claim_C10 (db : ProgramDatabase)
    (options : ProgramDatabase.FilterOptions) (w : ArrWorld.World)
    (l' : List CandidateSolution) :
    ((ArrWorld.getAllProgramsAlloc db w).1 = w.arrays.length ∧
     ArrWorld.readArr (ArrWorld.getAllProgramsAlloc db w).2
       (ArrWorld.getAllProgramsAlloc db w).1 = db.getAllPrograms ∧
     (∀ s, s < w.arrays.length →
       ArrWorld.readArr (ArrWorld.getAllProgramsAlloc db w).2 s =
       ArrWorld.readArr w s)) ∧
    ((ArrWorld.filterProgramsAlloc db options w).1 = w.arrays.length ∧
     ArrWorld.readArr (ArrWorld.filterProgramsAlloc db options w).2
       (ArrWorld.filterProgramsAlloc db options w).1 =
       db.filterPrograms options ∧
     (∀ s, s < w.arrays.length →
       ArrWorld.readArr (ArrWorld.filterProgramsAlloc db options w).2 s =
       ArrWorld.readArr w s)) ∧
    ArrWorld.readArr
      (ArrWorld.writeArr (ArrWorld.getAllProgramsAlloc db w).2
        (ArrWorld.getAllProgramsAlloc db w).1 l')
      (ArrWorld.getAllProgramsAlloc db w).1 = l' ∧
    db.count = db.getAllPrograms.length := by
  have hread : ∀ (l : List CandidateSolution),
      ArrWorld.readArr (ArrWorld.allocArr w l).2 (ArrWorld.allocArr w l).1 = l := by
    intro l
    unfold ArrWorld.readArr ArrWorld.allocArr
    dsimp only
    rw [List.getD_eq_getElem?_getD, List.getElem?_concat_length]
    rfl
  have hold : ∀ (l : List CandidateSolution) (s : ℕ), s < w.arrays.length →
      ArrWorld.readArr (ArrWorld.allocArr w l).2 s = ArrWorld.readArr w s := by
    intro l s hs
    unfold ArrWorld.readArr ArrWorld.allocArr
    dsimp only
    rw [List.getD_eq_getElem?_getD, List.getD_eq_getElem?_getD,
      List.getElem?_append_left hs]
  refine ⟨⟨rfl, hread _, fun s hs => hold _ s hs⟩,
    ⟨rfl, hread _, fun s hs => hold _ s hs⟩, ?_, rfl⟩
  unfold ArrWorld.readArr ArrWorld.writeArr ArrWorld.getAllProgramsAlloc
    ArrWorld.allocArr
  dsimp only
  rw [List.getD_eq_getElem?_getD, List.getElem?_set_self (by simp)]
  rfl

/-- C10 witness: the discipline at a concrete store and world. -/
theorem claim_C10_witness :
    ArrWorld.readArr
      (ArrWorld.getAllProgramsAlloc Examples.dbOne (ArrWorld.World.mk [])).2
      (ArrWorld.getAllProgramsAlloc Examples.dbOne (ArrWorld.World.mk [])).1 =
      Examples.dbOne.getAllPrograms ∧
    ArrWorld.readArr
      (ArrWorld.writeArr
        (ArrWorld.getAllProgramsAlloc Examples.dbOne (ArrWorld.World.mk [])).2
        (ArrWorld.getAllProgramsAlloc Examples.dbOne (ArrWorld.World.mk [])).1 [])
      (ArrWorld.getAllProgramsAlloc Examples.dbOne (ArrWorld.World.mk [])).1 = [] := by
  have h := claim_C10 Examples.dbOne
    { minQualityScore := none, minEfficiencyScore := none,
      minFinalScore := none, iterationRange := none, hasParent := none,
      hasFeedback := none } (ArrWorld.World.mk []) []
  exact ⟨h.1.2.1, h.2.2.1⟩

end AlphaRevolve
